import Mathlib

/-!
# Verification of the Huffman codec in `huffman.py` and the visualizer route in `app.py`

This file gives a shallow embedding of the compression core of the
repository (class `HuffmanCoding` and the module-level functions
`compress_file_content` / `decompress_file_content` of `huffman.py`,
plus the input validation of the `/visualizer` route of `app.py`)
and proves or refutes the specification claims about it.

Modelling conventions:
* a symbol (one character of the Python string, i.e. one byte of binary
  content after `chr`) is a `Nat`;
* a Python bit-string (a `str` over `'0'`/`'1'`) is a `List Bool`
  (`false` = `'0'`, `true` = `'1'`);
* a Python `dict` built with pairwise-distinct keys is an association
  list in insertion order; lookups are first-match;
* the `bytes` buffer is a `List Nat` whose entries are below 256
  (guaranteed by construction in `compress_file_content` and by the
  Python `bytes` type on the decompression side);
* `heapq` is modelled as a stable min-priority queue on the list of
  nodes: `heappop` removes the leftmost node of minimal `freq`
  (`HuffmanNode.__lt__` compares `freq` only), `heappush` appends.
-/

namespace HuffmanViz

/-- Huffman tree node, from class `HuffmanNode` of `huffman.py`.
In the Python code a node has fields `char : Option`, `freq`, `left`,
`right`; the only reachable shapes are leaves (`char` set, no children)
and internal nodes (`char = None`, both children set), which the two
constructors capture. -/
inductive HuffmanNode where
  | leaf (char : Nat) (freq : Nat)
  | node (freq : Nat) (left right : HuffmanNode)
deriving DecidableEq, Repr

/-- The `freq` field of a node. -/
def HuffmanNode.freq : HuffmanNode → Nat
  | .leaf _ f => f
  | .node f _ _ => f

/-- The distinct symbols of a text in first-occurrence order: the key
order of `collections.Counter(text)` (insertion-ordered dict). -/
def distinctSyms : List Nat → List Nat
  | [] => []
  | c :: t => c :: (distinctSyms t).filter (fun x => x ≠ c)

/-- `HuffmanCoding.build_frequency_dict`: `dict(Counter(text))`,
keys in first-occurrence order, values the occurrence counts. -/
def build_frequency_dict (text : List Nat) : List (Nat × Nat) :=
  (distinctSyms text).map (fun c => (c, text.count c))

/-- Dummy node used as the default of total list indexing. -/
def dummyNode : HuffmanNode := .leaf 0 0

/-- Index of the leftmost node of minimal `freq` in a nonempty list:
the node `heapq.heappop` removes in the stable-heap model. -/
def popMinIdx : List HuffmanNode → Nat
  | [] => 0
  | [_] => 0
  | t :: u :: ts =>
    let j := popMinIdx (u :: ts)
    if t.freq ≤ ((u :: ts).getD j dummyNode).freq then 0 else j + 1

/-- `heapq.heappop` in the stable-heap model: return the leftmost
minimal-`freq` node and the remaining list. -/
def heappop (l : List HuffmanNode) : HuffmanNode × List HuffmanNode :=
  (l.getD (popMinIdx l) dummyNode, l.eraseIdx (popMinIdx l))

/-- One iteration of the `while len(self.heap) > 1` loop of
`HuffmanCoding.build_tree`: pop two nodes, merge them into an internal
node with `freq` the sum (first popped becomes `left`, second `right`),
push the merged node back. -/
def build_tree_step (l : List HuffmanNode) : List HuffmanNode :=
  let p1 := heappop l
  let p2 := heappop p1.2
  p2.2 ++ [HuffmanNode.node (p1.1.freq + p2.1.freq) p1.1 p2.1]

lemma popMinIdx_lt_length : ∀ l : List HuffmanNode, l ≠ [] → popMinIdx l < l.length := by
  intro l
  induction l with
  | nil => intro h; exact absurd rfl h
  | cons a t ih =>
    intro _
    cases t with
    | nil => simp [popMinIdx]
    | cons b u =>
      rw [popMinIdx]
      split
      · simp
      · have := ih (by simp)
        simpa using Nat.succ_lt_succ this

lemma heappop_snd_length (l : List HuffmanNode) (h : l ≠ []) :
    (heappop l).2.length = l.length - 1 := by
  simp only [heappop]
  have := List.length_eraseIdx_add_one (popMinIdx_lt_length l h)
  omega

lemma build_tree_step_length (l : List HuffmanNode) (h : 2 ≤ l.length) :
    (build_tree_step l).length = l.length - 1 := by
  have h1 : l ≠ [] := by intro e; subst e; simp at h
  have e1 : (heappop l).2.length = l.length - 1 := heappop_snd_length l h1
  have h2 : (heappop l).2 ≠ [] := by
    intro e
    rw [e] at e1
    simp at e1
    omega
  have e2 : (heappop (heappop l).2).2.length = (heappop l).2.length - 1 :=
    heappop_snd_length _ h2
  simp only [build_tree_step, List.length_append, List.length_cons, List.length_nil, e2, e1]
  omega

/-- The whole loop of `HuffmanCoding.build_tree` with explicit fuel
(each iteration shrinks the heap by one node, so `l.length` rounds of
fuel always suffice; the fuel only makes the recursion structural). -/
def huffLoopFuel : Nat → List HuffmanNode → List HuffmanNode
  | 0, l => l
  | fuel + 1, l => if l.length ≤ 1 then l else huffLoopFuel fuel (build_tree_step l)

/-- The whole loop of `HuffmanCoding.build_tree`: iterate
`build_tree_step` until at most one node remains. -/
def huffLoop (l : List HuffmanNode) : List HuffmanNode :=
  huffLoopFuel l.length l

lemma huffLoopFuel_congr : ∀ f g l, l.length ≤ f + 1 → l.length ≤ g + 1 →
    huffLoopFuel f l = huffLoopFuel g l := by
  intro f
  induction f with
  | zero =>
    intro g l hf _
    cases g with
    | zero => rfl
    | succ g =>
      have : l.length ≤ 1 := hf
      simp [huffLoopFuel, this]
  | succ f ih =>
    intro g l hf hg
    cases g with
    | zero =>
      have : l.length ≤ 1 := hg
      simp [huffLoopFuel, this]
    | succ g =>
      by_cases h1 : l.length ≤ 1
      · simp [huffLoopFuel, h1]
      · have hlen : (build_tree_step l).length = l.length - 1 :=
          build_tree_step_length l (by omega)
        simp only [huffLoopFuel, h1, if_false]
        exact ih g (build_tree_step l) (by omega) (by omega)

lemma huffLoop_done (l : List HuffmanNode) (h : l.length ≤ 1) : huffLoop l = l := by
  cases l with
  | nil => rfl
  | cons a t =>
    have : t = [] := by
      cases t with
      | nil => rfl
      | cons b u => simp at h
    subst this
    simp [huffLoop, huffLoopFuel]

lemma huffLoop_step (l : List HuffmanNode) (h : 2 ≤ l.length) :
    huffLoop l = huffLoop (build_tree_step l) := by
  have hlen : (build_tree_step l).length = l.length - 1 := build_tree_step_length l h
  cases hl : l.length with
  | zero => omega
  | succ n =>
    simp only [huffLoop, hl, huffLoopFuel]
    have h1 : ¬ l.length ≤ 1 := by omega
    rw [hl] at h1
    simp only [h1, if_false]
    exact huffLoopFuel_congr n (build_tree_step l).length (build_tree_step l)
      (by omega) (by omega)

/-- `HuffmanCoding.build_tree` on a heap built by `build_heap`:
run the merge loop and return `heap[0]` (`none` when the heap is
empty, in which case the Python code would raise `IndexError`;
`compress` only calls it on nonempty heaps). -/
def build_tree (l : List HuffmanNode) : Option HuffmanNode :=
  (huffLoop l).head?

/-- `HuffmanCoding.build_codes_helper`: recursive descent that assigns
to every leaf the path bit-string (left = `'0'` = `false`, right =
`'1'` = `true`), in left-to-right leaf order (the Python dict insertion
order). -/
def build_codes_helper : HuffmanNode → List Bool → List (Nat × List Bool)
  | .leaf c _, current_code => [(c, current_code)]
  | .node _ l r, current_code =>
    build_codes_helper l (current_code ++ [false]) ++
      build_codes_helper r (current_code ++ [true])

/-- `HuffmanCoding.build_codes`: empty table when there is no root,
the single-entry table `{char: "0"}` when the root is a leaf, and the
recursive traversal starting from the empty bit-string otherwise. -/
def build_codes : Option HuffmanNode → List (Nat × List Bool)
  | none => []
  | some (.leaf c _) => [(c, [false])]
  | some (.node f l r) => build_codes_helper (.node f l r) []

/-- Lookup in the `codes` dict (first match; keys of generated tables
are pairwise distinct). -/
def codesGet (codes : List (Nat × List Bool)) (c : Nat) : Option (List Bool) :=
  (codes.find? (fun p => p.1 = c)).map (fun p => p.2)

/-- `HuffmanCoding.encode_text`: concatenate `self.codes.get(char, "")`
over the text, missing symbols contributing the empty string. -/
def encode_text (codes : List (Nat × List Bool)) (text : List Nat) : List Bool :=
  (text.map (fun c => (codesGet codes c).getD [])).flatten

/-- Lookup in `reverse_codes = {v: k for k, v in codes.items()}`:
the *last* entry of `codes` whose code equals `w` wins, matching the
overwrite semantics of the Python dict comprehension. -/
def revGet (codes : List (Nat × List Bool)) (w : List Bool) : Option Nat :=
  (codes.reverse.find? (fun p => p.2 = w)).map (fun p => p.1)

/-- The accumulator loop of `HuffmanCoding.decode_text`: extend the
candidate `current_code` bit by bit, emit a symbol and reset the
candidate whenever the candidate is a key of `reverse_codes`.
A nonempty final candidate is silently discarded. -/
def decode_text_aux (codes : List (Nat × List Bool)) :
    List Bool → List Bool → List Nat
  | [], _current_code => []
  | b :: bs, current_code =>
    match revGet codes (current_code ++ [b]) with
    | some ch => ch :: decode_text_aux codes bs []
    | none => decode_text_aux codes bs (current_code ++ [b])

/-- `HuffmanCoding.decode_text`. -/
def decode_text (codes : List (Nat × List Bool)) (encoded : List Bool) : List Nat :=
  decode_text_aux codes encoded []

/-- `HuffmanCoding.compress`: the full pipeline, returning
`(encoded_text, codes, root)`; empty text short-circuits to
`("", {}, None)` with no tree build. -/
def compress (text : List Nat) : List Bool × List (Nat × List Bool) × Option HuffmanNode :=
  if text = [] then ([], [], none)
  else
    let frequency := build_frequency_dict text
    let heap := frequency.map (fun p => HuffmanNode.leaf p.1 p.2)
    let root := build_tree heap
    let codes := build_codes root
    (encode_text codes text, codes, root)

/-- Value of a bit-string read as a binary numeral, most significant
bit first: `int(byte, 2)`. -/
def bitsToNat (bits : List Bool) : Nat :=
  bits.foldl (fun a b => 2 * a + (if b then 1 else 0)) 0

/-- The `w`-bit big-endian binary expansion of `n % 2^w`:
`format(byte, '08b')` at `w = 8` for a byte value (`byte < 256`). -/
def natToBits : Nat → Nat → List Bool
  | 0, _ => []
  | w + 1, n => natToBits w (n / 2) ++ [decide (n % 2 = 1)]

/-- The byte-packing loop of `compress_file_content` with explicit
fuel (each round drops at least one bit, so `bits.length` rounds
always suffice; the fuel only makes the recursion structural). -/
def packBitsFuel : Nat → List Bool → List Nat
  | 0, _ => []
  | fuel + 1, bits =>
    if bits = [] then []
    else bitsToNat (bits.take 8) :: packBitsFuel fuel (bits.drop 8)

/-- The byte-packing loop of `compress_file_content`: slice the padded
bit-string into 8-bit groups and convert each with `int(byte, 2)`. -/
def packBits (bits : List Bool) : List Nat :=
  packBitsFuel bits.length bits

lemma packBitsFuel_congr : ∀ f g bits, bits.length ≤ f → bits.length ≤ g →
    packBitsFuel f bits = packBitsFuel g bits := by
  intro f
  induction f with
  | zero =>
    intro g bits hf _
    have : bits = [] := by
      cases bits with
      | nil => rfl
      | cons a t => simp at hf
    subst this
    cases g <;> rfl
  | succ f ih =>
    intro g bits hf hg
    cases g with
    | zero =>
      have : bits = [] := by
        cases bits with
        | nil => rfl
        | cons a t => simp at hg
      subst this
      rfl
    | succ g =>
      by_cases hb : bits = []
      · simp [packBitsFuel, hb]
      · have hlen : bits.length ≠ 0 := by
          intro e
          exact hb (List.eq_nil_of_length_eq_zero e)
        simp only [packBitsFuel, hb, if_false]
        have : (bits.drop 8).length ≤ f := by
          simp only [List.length_drop]; omega
        have hgg : (bits.drop 8).length ≤ g := by
          simp only [List.length_drop]; omega
        rw [ih g (bits.drop 8) this hgg]

lemma packBits_nil : packBits [] = [] := rfl

lemma packBits_cons (bits : List Bool) (h : bits ≠ []) :
    packBits bits = bitsToNat (bits.take 8) :: packBits (bits.drop 8) := by
  have hlen : bits.length ≠ 0 := by
    intro e
    exact h (List.eq_nil_of_length_eq_zero e)
  cases hb : bits.length with
  | zero => omega
  | succ n =>
    simp only [packBits, hb, packBitsFuel, h, if_false]
    congr 1
    exact packBitsFuel_congr n ((bits.drop 8).length) (bits.drop 8)
      (by simp only [List.length_drop]; omega) (le_refl _)

/-- Python slicing `s[:-p]`: everything but the last `p` elements when
`0 < p ≤ len(s)`, the empty list when `p = 0` (since `s[:0] = ""`) or
when `p ≥ len(s)`. -/
def pyDropLast (l : List Bool) (p : Nat) : List Bool :=
  if p = 0 then [] else l.take (l.length - p)

/-- The metadata record stored next to each compressed buffer
(`codes`, `padding`, `original_size` keys of the `metadata` dict). -/
structure Metadata where
  codes : List (Nat × List Bool)
  padding : Nat
  original_size : Nat
deriving DecidableEq, Repr

/-- `compress_file_content` of `huffman.py`: run `HuffmanCoding.compress`,
pad the encoded bit-string with `8 - len % 8` zero bits (a value in
`[1, 8]`; a full extra zero byte when already aligned), pack to bytes,
and return the buffer with its metadata. -/
def compress_file_content (content : List Nat) : List Nat × Metadata :=
  let r := compress content
  let encoded := r.1
  let codes := r.2.1
  let padding := 8 - encoded.length % 8
  let padded := encoded ++ List.replicate padding false
  (packBits padded, ⟨codes, padding, content.length⟩)

/-- `decompress_file_content` of `huffman.py`: expand each byte with
`format(byte, '08b')`, drop the padding with the slice
`binary_str[:-padding]`, and run `decode_text` against the inverted
code table. -/
def decompress_file_content (compressed : List Nat) (metadata : Metadata) : List Nat :=
  let binary_str := compressed.flatMap (natToBits 8)
  let stripped := pyDropLast binary_str metadata.padding
  decode_text metadata.codes stripped

/-! ## Embedding of the `/visualizer` POST handler of `app.py`

The handler parses `char_freq` with `json.loads`, checks
`isinstance(char_freq, dict)` and
`all(isinstance(k, str) and isinstance(v, int) for k, v in char_freq.items())`,
builds `text = "".join(char * freq for char, freq in char_freq.items())`
and runs `HuffmanCoding.compress` on it.  `json.loads` only produces
dicts whose keys are strings, so `isinstance(k, str)` is always true
and the model gives dict keys the type `String`.  Dict values are
modelled by what the validation distinguishes: a Python `int`, a
Python `bool` (a subclass of `int`, so `isinstance(v, int)` holds),
or any other JSON value. -/

/-- A dict value as seen by the validation of the `/visualizer` route. -/
inductive PyVal where
  | pyint (n : Int)
  | pybool (b : Bool)
  | other
deriving DecidableEq, Repr

/-- The result of `json.loads(char_freq_str)`: a dict with string keys,
or any non-dict JSON value. -/
inductive CharFreq where
  | dict (entries : List (String × PyVal))
  | nondict
deriving DecidableEq, Repr

/-- Python `isinstance(v, int)` on a dict value (`bool` is a subclass
of `int`). -/
def isIntVal : PyVal → Bool
  | .pyint _ => true
  | .pybool _ => true
  | .other => false

/-- The integer a valid dict value denotes (`True` counts as 1,
`False` as 0). -/
def intVal : PyVal → Int
  | .pyint n => n
  | .pybool b => if b then 1 else 0
  | .other => 0

/-- The symbols of a Python string, as codepoints. -/
def strSymbols (s : String) : List Nat :=
  s.data.map (fun c => c.toNat)

/-- `char * freq` for a string key and an integer count: `freq`
repetitions when `freq > 0`, otherwise the empty string. -/
def pyStrMul (s : String) (n : Int) : List Nat :=
  (List.replicate n.toNat (strSymbols s)).flatten

/-- `"".join(char * freq for char, freq in char_freq.items())`. -/
def buildText (entries : List (String × PyVal)) : List Nat :=
  (entries.map (fun p => pyStrMul p.1 (intVal p.2))).flatten

/-- Outcome of a POST to `/visualizer`: a 200 response carrying the
generated code table (the tree JSON export is a read-only projection
of the same tree and is not modelled), or a 400 client-input error
(`json.JSONDecodeError` or the `ValueError` raised by the validation). -/
inductive VizResponse where
  | ok (codes : List (Nat × List Bool))
  | clientError
deriving DecidableEq, Repr

/-- The POST branch of the `visualizer` route of `app.py`;
`none` stands for a `char_freq` string that fails `json.loads`. -/
def visualizer_post : Option CharFreq → VizResponse
  | none => .clientError
  | some .nondict => .clientError
  | some (.dict entries) =>
    if entries.all (fun p => isIntVal p.2) then
      .ok (compress (buildText entries)).2.1
    else .clientError

/-! ## Lemmas about bit packing and unpacking -/

lemma natToBits_length : ∀ w n, (natToBits w n).length = w
  | 0, _ => rfl
  | w + 1, n => by simp [natToBits, natToBits_length w]

lemma bitsToNat_shift (bits : List Bool) :
    ∀ a, bits.foldl (fun x b => 2 * x + (if b then 1 else 0)) a
      = a * 2 ^ bits.length + bitsToNat bits := by
  induction bits with
  | nil => intro a; simp [bitsToNat]
  | cons b t ih =>
    intro a
    simp only [List.foldl_cons, List.length_cons]
    rw [ih]
    conv_rhs => rw [bitsToNat]
    simp only [List.foldl_cons]
    rw [ih (2 * 0 + (if b then 1 else 0))]
    rw [pow_succ]
    ring

lemma bitsToNat_append_bit (xs : List Bool) (b : Bool) :
    bitsToNat (xs ++ [b]) = 2 * bitsToNat xs + (if b then 1 else 0) := by
  simp only [bitsToNat, List.foldl_append, List.foldl_cons, List.foldl_nil]

lemma bitsToNat_lt (bits : List Bool) : bitsToNat bits < 2 ^ bits.length := by
  induction bits with
  | nil => simp [bitsToNat]
  | cons b t ih =>
    rw [bitsToNat, List.foldl_cons, bitsToNat_shift, List.length_cons, pow_succ]
    have hb : (if b then 1 else 0) ≤ 1 := by cases b <;> simp
    have h2 : (2 * 0 + (if b then 1 else 0)) * 2 ^ t.length ≤ 2 ^ t.length := by
      cases b <;> simp
    calc (2 * 0 + (if b then 1 else 0)) * 2 ^ t.length + bitsToNat t
        < (2 * 0 + (if b then 1 else 0)) * 2 ^ t.length + 2 ^ t.length := by omega
      _ ≤ 2 ^ t.length + 2 ^ t.length := by omega
      _ = 2 ^ t.length * 2 := by ring

lemma natToBits_bitsToNat : ∀ (w : Nat) (bits : List Bool), bits.length = w →
    natToBits w (bitsToNat bits) = bits := by
  intro w
  induction w with
  | zero =>
    intro bits h
    rw [List.length_eq_zero] at h
    subst h
    rfl
  | succ w ih =>
    intro bits h
    rcases bits.eq_nil_or_concat' with rfl | ⟨xs, b, rfl⟩
    · simp at h
    · rw [bitsToNat_append_bit]
      have hx : xs.length = w := by
        simp only [List.length_append, List.length_cons, List.length_nil] at h
        omega
      rw [natToBits]
      have hc : (if b then 1 else 0) = 0 ∨ (if b then 1 else 0) = 1 := by
        cases b <;> simp
      have h2 : (2 * bitsToNat xs + (if b then 1 else 0)) / 2 = bitsToNat xs := by
        rcases hc with hc | hc <;> rw [hc] <;> omega
      have h3 : (2 * bitsToNat xs + (if b then 1 else 0)) % 2 = (if b then 1 else 0) := by
        rcases hc with hc | hc <;> rw [hc] <;> omega
      rw [h2, h3, ih xs hx]
      congr 1
      cases b <;> simp

lemma packBits_length (bits : List Bool) :
    (packBits bits).length = (bits.length + 7) / 8 := by
  suffices H : ∀ n (bits : List Bool), bits.length ≤ n →
      (packBits bits).length = (bits.length + 7) / 8 from H bits.length bits le_rfl
  intro n
  induction n with
  | zero =>
    intro bits h
    have : bits = [] := by
      cases bits with
      | nil => rfl
      | cons a t => simp at h
    subst this
    simp [packBits_nil]
  | succ n ih =>
    intro bits h
    by_cases hb : bits = []
    · subst hb; simp [packBits_nil]
    · have hlen : bits.length ≠ 0 := by
        intro e; exact hb (List.eq_nil_of_length_eq_zero e)
      rw [packBits_cons bits hb]
      simp only [List.length_cons]
      rw [ih (bits.drop 8) (by simp only [List.length_drop]; omega)]
      simp only [List.length_drop]
      omega

lemma packBits_unpack (bits : List Bool) (hdiv : bits.length % 8 = 0) :
    (packBits bits).flatMap (natToBits 8) = bits := by
  suffices H : ∀ n (bits : List Bool), bits.length ≤ n → bits.length % 8 = 0 →
      (packBits bits).flatMap (natToBits 8) = bits from
    H bits.length bits le_rfl hdiv
  intro n
  induction n with
  | zero =>
    intro bits h _
    have : bits = [] := by
      cases bits with
      | nil => rfl
      | cons a t => simp at h
    subst this
    simp [packBits_nil]
  | succ n ih =>
    intro bits h hdiv8
    by_cases hb : bits = []
    · subst hb; simp [packBits_nil]
    · have hlen : bits.length ≠ 0 := by
        intro e; exact hb (List.eq_nil_of_length_eq_zero e)
      have h8 : 8 ≤ bits.length := by omega
      rw [packBits_cons bits hb]
      simp only [List.flatMap_cons]
      have htake : (bits.take 8).length = 8 := by
        simp only [List.length_take]
        omega
      rw [natToBits_bitsToNat 8 (bits.take 8) htake]
      rw [ih (bits.drop 8) (by simp only [List.length_drop]; omega)
        (by simp only [List.length_drop]; omega)]
      exact List.take_append_drop 8 bits

lemma packBits_append (xs ys : List Bool) (hdiv : xs.length % 8 = 0) :
    packBits (xs ++ ys) = packBits xs ++ packBits ys := by
  suffices H : ∀ n (xs : List Bool), xs.length ≤ n → xs.length % 8 = 0 →
      packBits (xs ++ ys) = packBits xs ++ packBits ys from
    H xs.length xs le_rfl hdiv
  intro n
  induction n with
  | zero =>
    intro xs h _
    have : xs = [] := by
      cases xs with
      | nil => rfl
      | cons a t => simp at h
    subst this
    simp [packBits_nil]
  | succ n ih =>
    intro xs h hdiv8
    by_cases hx : xs = []
    · subst hx; simp [packBits_nil]
    · have hlen : xs.length ≠ 0 := by
        intro e; exact hx (List.eq_nil_of_length_eq_zero e)
      have h8 : 8 ≤ xs.length := by omega
      have hxy : xs ++ ys ≠ [] := by
        intro e
        exact hx (List.append_eq_nil.mp e).1
      rw [packBits_cons xs hx, packBits_cons (xs ++ ys) hxy]
      rw [List.take_append_of_le_length h8, List.drop_append_of_le_length h8]
      rw [ih (xs.drop 8) (by simp only [List.length_drop]; omega)
        (by simp only [List.length_drop]; omega)]
      simp

lemma flatMap_natToBits_length (buf : List Nat) :
    (buf.flatMap (natToBits 8)).length = 8 * buf.length := by
  induction buf with
  | nil => simp
  | cons a t ih =>
    simp only [List.flatMap_cons, List.length_append, ih, natToBits_length, List.length_cons]
    ring

lemma pyDropLast_pad (xs : List Bool) (p : Nat) (hp : p ≠ 0) :
    pyDropLast (xs ++ List.replicate p false) p = xs := by
  simp only [pyDropLast, hp, if_false, List.length_append, List.length_replicate]
  rw [show xs.length + p - p = xs.length by omega]
  rw [List.take_append_of_le_length le_rfl, List.take_length]

lemma pyDropLast_ge (l : List Bool) (p : Nat) (h : l.length ≤ p) :
    pyDropLast l p = [] := by
  by_cases hp : p = 0
  · simp [pyDropLast, hp]
  · simp only [pyDropLast, hp, if_false]
    rw [show l.length - p = 0 by omega]
    simp

lemma pyDropLast_take (l : List Bool) (p : Nat) (hp : p ≠ 0) :
    pyDropLast l p = l.take (l.length - p) := by
  simp [pyDropLast, hp]
/-! ## Frequency table, heap and tree lemmas -/

lemma distinctSyms_nodup (t : List Nat) : (distinctSyms t).Nodup := by
  induction t with
  | nil => simp [distinctSyms]
  | cons c t ih =>
    simp only [distinctSyms, List.nodup_cons]
    refine ⟨fun hmem => ?_, ih.filter _⟩
    have := (List.mem_filter.mp hmem).2
    simp at this

lemma mem_distinctSyms (t : List Nat) (x : Nat) : x ∈ distinctSyms t ↔ x ∈ t := by
  induction t with
  | nil => simp [distinctSyms]
  | cons c t ih =>
    simp only [distinctSyms, List.mem_cons, List.mem_filter]
    constructor
    · rintro (rfl | ⟨hmem, _⟩)
      · exact .inl rfl
      · exact .inr (ih.mp hmem)
    · rintro (rfl | hmem)
      · exact .inl rfl
      · by_cases hx : x = c
        · exact .inl hx
        · exact .inr ⟨ih.mpr hmem, by simpa using hx⟩

lemma distinctSyms_ne_nil (t : List Nat) (h : t ≠ []) : distinctSyms t ≠ [] := by
  cases t with
  | nil => exact absurd rfl h
  | cons c u => simp [distinctSyms]

/-- The characters at the leaves of a tree, in left-to-right order. -/
def leaves : HuffmanNode → List Nat
  | .leaf c _ => [c]
  | .node _ l r => leaves l ++ leaves r

/-- The leaf characters of all trees of a forest. -/
def forestLeaves (F : List HuffmanNode) : List Nat :=
  (F.map leaves).flatten

lemma leaves_ne_nil : ∀ t, leaves t ≠ []
  | .leaf _ _ => by simp [leaves]
  | .node _ l r => by
    simp only [leaves, ne_eq, List.append_eq_nil, not_and]
    intro h
    exact absurd h (leaves_ne_nil l)

lemma perm_getD_cons_eraseIdx (l : List HuffmanNode) (i : Nat) (h : i < l.length) :
    List.Perm l (l.getD i dummyNode :: l.eraseIdx i) := by
  have hdrop : l.drop i = l.getD i dummyNode :: l.drop (i + 1) := by
    rw [List.getD_eq_getElem l dummyNode h]
    exact List.drop_eq_getElem_cons h
  have hsplit : l = l.take i ++ (l.getD i dummyNode :: l.drop (i + 1)) := by
    conv_lhs => rw [← List.take_append_drop i l]
    rw [hdrop]
  have herase : l.eraseIdx i = l.take i ++ l.drop (i + 1) :=
    List.eraseIdx_eq_take_drop_succ l i
  rw [herase]
  conv_lhs => rw [hsplit]
  exact List.perm_middle

lemma heappop_perm (l : List HuffmanNode) (h : l ≠ []) :
    List.Perm l ((heappop l).1 :: (heappop l).2) :=
  perm_getD_cons_eraseIdx l (popMinIdx l) (popMinIdx_lt_length l h)

lemma forestLeaves_perm_of_perm (F G : List HuffmanNode) (h : List.Perm F G) :
    List.Perm (forestLeaves F) (forestLeaves G) :=
  (h.map leaves).flatten

lemma forestLeaves_step_perm (l : List HuffmanNode) (h : 2 ≤ l.length) :
    List.Perm (forestLeaves (build_tree_step l)) (forestLeaves l) := by
  have h1 : l ≠ [] := by intro e; subst e; simp at h
  have e1 : (heappop l).2.length = l.length - 1 := heappop_snd_length l h1
  have h2 : (heappop l).2 ≠ [] := by
    intro e
    rw [e] at e1
    simp at e1
    omega
  have hp1 : List.Perm l ((heappop l).1 :: (heappop l).2) := heappop_perm l h1
  have hp2 : List.Perm (heappop l).2
      ((heappop (heappop l).2).1 :: (heappop (heappop l).2).2) := heappop_perm _ h2
  have hstep : forestLeaves (build_tree_step l)
      = forestLeaves (heappop (heappop l).2).2
        ++ (leaves (heappop l).1 ++ leaves (heappop (heappop l).2).1) := by
    simp [build_tree_step, forestLeaves, leaves]
  rw [hstep]
  have e3 : forestLeaves ((heappop l).1 :: (heappop l).2)
      = leaves (heappop l).1 ++ forestLeaves (heappop l).2 := by simp [forestLeaves]
  have e4 : forestLeaves ((heappop (heappop l).2).1 :: (heappop (heappop l).2).2)
      = leaves (heappop (heappop l).2).1 ++ forestLeaves (heappop (heappop l).2).2 := by
    simp [forestLeaves]
  have A := forestLeaves_perm_of_perm _ _ hp1
  rw [e3] at A
  have B := forestLeaves_perm_of_perm _ _ hp2
  rw [e4] at B
  have C : List.Perm (forestLeaves l)
      (leaves (heappop l).1 ++ (leaves (heappop (heappop l).2).1
        ++ forestLeaves (heappop (heappop l).2).2)) :=
    A.trans (List.Perm.append_left _ B)
  refine List.Perm.symm (C.trans ?_)
  have D : List.Perm
      ((leaves (heappop l).1 ++ leaves (heappop (heappop l).2).1)
        ++ forestLeaves (heappop (heappop l).2).2)
      (forestLeaves (heappop (heappop l).2).2
        ++ (leaves (heappop l).1 ++ leaves (heappop (heappop l).2).1)) :=
    List.perm_append_comm
  simpa [List.append_assoc] using D

lemma huffLoop_length_one (l : List HuffmanNode) (h : l ≠ []) :
    (huffLoop l).length = 1 := by
  suffices H : ∀ n (l : List HuffmanNode), l.length ≤ n → l ≠ [] →
      (huffLoop l).length = 1 from H l.length l le_rfl h
  intro n
  induction n with
  | zero =>
    intro l hl hne
    cases l with
    | nil => exact absurd rfl hne
    | cons a t => simp at hl
  | succ n ih =>
    intro l hl hne
    by_cases h1 : l.length ≤ 1
    · rw [huffLoop_done l h1]
      cases l with
      | nil => exact absurd rfl hne
      | cons a t =>
        cases t with
        | nil => rfl
        | cons b u => simp at h1
    · rw [huffLoop_step l (by omega)]
      have hlen : (build_tree_step l).length = l.length - 1 :=
        build_tree_step_length l (by omega)
      refine ih (build_tree_step l) (by omega) ?_
      intro e
      rw [e] at hlen
      simp at hlen
      omega

lemma huffLoop_leaves_perm (l : List HuffmanNode) :
    List.Perm (forestLeaves (huffLoop l)) (forestLeaves l) := by
  suffices H : ∀ n (l : List HuffmanNode), l.length ≤ n →
      List.Perm (forestLeaves (huffLoop l)) (forestLeaves l) from H l.length l le_rfl
  intro n
  induction n with
  | zero =>
    intro l hl
    have : l = [] := by
      cases l with
      | nil => rfl
      | cons a t => simp at hl
    subst this
    simp [huffLoop_done]
  | succ n ih =>
    intro l hl
    by_cases h1 : l.length ≤ 1
    · rw [huffLoop_done l h1]
    · rw [huffLoop_step l (by omega)]
      have hlen : (build_tree_step l).length = l.length - 1 :=
        build_tree_step_length l (by omega)
      exact (ih (build_tree_step l) (by omega)).trans (forestLeaves_step_perm l (by omega))

lemma build_tree_total (l : List HuffmanNode) (h : l ≠ []) :
    ∃ t, huffLoop l = [t] ∧ build_tree l = some t ∧
      List.Perm (leaves t) (forestLeaves l) := by
  obtain ⟨t, ht⟩ := List.length_eq_one.mp (huffLoop_length_one l h)
  refine ⟨t, ht, ?_, ?_⟩
  · simp [build_tree, ht]
  · have := huffLoop_leaves_perm l
    rw [ht] at this
    simpa [forestLeaves] using this

lemma flatten_map_singleton (l : List Nat) :
    (l.map (fun c => [c])).flatten = l := by
  induction l with
  | nil => rfl
  | cons a t ih => simp [ih]

lemma forestLeaves_initial (text : List Nat) :
    forestLeaves ((build_frequency_dict text).map (fun p => HuffmanNode.leaf p.1 p.2))
      = distinctSyms text := by
  unfold forestLeaves build_frequency_dict
  rw [List.map_map, List.map_map]
  have : ((distinctSyms text).map
      ((leaves ∘ fun p => HuffmanNode.leaf p.1 p.2) ∘ fun c => (c, text.count c)))
      = (distinctSyms text).map (fun c => [c]) := by
    apply List.map_congr_left
    intro c _
    rfl
  rw [this]
  exact flatten_map_singleton _

/-! ## Code table lemmas -/

/-- Two code-table entries have incomparable codes: neither bit-string
is an initial segment of the other. -/
def codeSeparate (e1 e2 : Nat × List Bool) : Prop :=
  ¬ e1.2 <+: e2.2 ∧ ¬ e2.2 <+: e1.2

instance (e1 e2 : Nat × List Bool) : Decidable (codeSeparate e1 e2) := by
  unfold codeSeparate
  infer_instance

lemma codeSeparate_symm : Symmetric codeSeparate :=
  fun _ _ h => ⟨h.2, h.1⟩

lemma build_codes_helper_keys : ∀ (t : HuffmanNode) (pre : List Bool),
    (build_codes_helper t pre).map (fun e => e.1) = leaves t
  | .leaf c f, pre => by simp [build_codes_helper, leaves]
  | .node f l r, pre => by
    simp [build_codes_helper, leaves,
      build_codes_helper_keys l, build_codes_helper_keys r]

lemma build_codes_helper_extends : ∀ (t : HuffmanNode) (pre : List Bool) (c : Nat)
    (w : List Bool), (c, w) ∈ build_codes_helper t pre → pre <+: w
  | .leaf c0 f, pre, c, w, h => by
    simp only [build_codes_helper, List.mem_singleton, Prod.mk.injEq] at h
    rw [h.2]
  | .node f l r, pre, c, w, h => by
    simp only [build_codes_helper, List.mem_append] at h
    cases h with
    | inl h =>
      exact (List.prefix_append pre [false]).trans
        (build_codes_helper_extends l _ c w h)
    | inr h =>
      exact (List.prefix_append pre [true]).trans
        (build_codes_helper_extends r _ c w h)

lemma build_codes_helper_shape (t : HuffmanNode) (pre : List Bool) (b : Bool)
    (c : Nat) (w : List Bool) (h : (c, w) ∈ build_codes_helper t (pre ++ [b])) :
    ∃ suf, w = pre ++ b :: suf := by
  obtain ⟨suf, hs⟩ := build_codes_helper_extends t (pre ++ [b]) c w h
  exact ⟨suf, by rw [← hs]; simp⟩

lemma build_codes_helper_pairwise : ∀ (t : HuffmanNode) (pre : List Bool),
    (build_codes_helper t pre).Pairwise codeSeparate
  | .leaf c f, pre => by simp [build_codes_helper]
  | .node f l r, pre => by
    rw [build_codes_helper, List.pairwise_append]
    refine ⟨build_codes_helper_pairwise l _, build_codes_helper_pairwise r _, ?_⟩
    rintro ⟨c1, w1⟩ h1 ⟨c2, w2⟩ h2
    obtain ⟨u, hu⟩ := build_codes_helper_shape l pre false c1 w1 h1
    obtain ⟨v, hv⟩ := build_codes_helper_shape r pre true c2 w2 h2
    subst hu hv
    constructor
    · intro hp
      have h3 := (List.prefix_append_right_inj pre).mp hp
      have h4 := (List.cons_prefix_cons.mp h3).1
      simp at h4
    · intro hp
      have h3 := (List.prefix_append_right_inj pre).mp hp
      have h4 := (List.cons_prefix_cons.mp h3).1
      simp at h4

lemma build_codes_keys (root : HuffmanNode) :
    (build_codes (some root)).map (fun e => e.1) = leaves root := by
  cases root with
  | leaf c f => simp [build_codes, leaves]
  | node f l r => exact build_codes_helper_keys _ []

lemma build_codes_pairwise (root : HuffmanNode) :
    (build_codes (some root)).Pairwise codeSeparate := by
  cases root with
  | leaf c f => simp [build_codes]
  | node f l r => exact build_codes_helper_pairwise _ []

lemma build_codes_val_ne_nil (root : HuffmanNode) :
    ∀ e ∈ build_codes (some root), e.2 ≠ [] := by
  cases root with
  | leaf c f =>
    rintro ⟨c', w⟩ he
    simp only [build_codes, List.mem_singleton, Prod.mk.injEq] at he
    rw [he.2]
    simp
  | node f l r =>
    rintro ⟨c', w⟩ he
    rw [build_codes, build_codes_helper] at he
    simp only [List.mem_append] at he
    cases he with
    | inl h =>
      obtain ⟨u, hu⟩ := build_codes_helper_shape l [] false c' w (by simpa using h)
      rw [hu]
      simp
    | inr h =>
      obtain ⟨u, hu⟩ := build_codes_helper_shape r [] true c' w (by simpa using h)
      rw [hu]
      simp

lemma codesGet_of_mem (codes : List (Nat × List Bool))
    (hnd : (codes.map (fun e => e.1)).Nodup) (c : Nat) (w : List Bool)
    (hmem : (c, w) ∈ codes) : codesGet codes c = some w := by
  induction codes with
  | nil => simp at hmem
  | cons e t ih =>
    simp only [List.map_cons, List.nodup_cons] at hnd
    by_cases hc : e.1 = c
    · have he : e = (c, w) := by
        cases List.mem_cons.mp hmem with
        | inl h => exact h.symm
        | inr h =>
          exfalso
          apply hnd.1
          rw [hc]
          exact List.mem_map.mpr ⟨(c, w), h, rfl⟩
      rw [codesGet, List.find?_cons_of_pos _ (by simp [hc])]
      simp [he]
    · have hmem2 : (c, w) ∈ t := by
        cases List.mem_cons.mp hmem with
        | inl h =>
          exfalso
          apply hc
          rw [← h]
        | inr h => exact h
      rw [codesGet, List.find?_cons_of_neg _ (by simp [hc])]
      exact ih hnd.2 hmem2

lemma key_mem_codesGet (codes : List (Nat × List Bool))
    (hnd : (codes.map (fun e => e.1)).Nodup) (c : Nat)
    (hc : c ∈ codes.map (fun e => e.1)) :
    ∃ w, (c, w) ∈ codes ∧ codesGet codes c = some w := by
  obtain ⟨e, he, hk⟩ := List.mem_map.mp hc
  rcases e with ⟨c', w⟩
  simp only at hk
  subst hk
  exact ⟨w, he, codesGet_of_mem codes hnd c' w he⟩

lemma revGet_of_mem (codes : List (Nat × List Bool))
    (hpw : codes.Pairwise codeSeparate) (c : Nat) (w : List Bool)
    (hmem : (c, w) ∈ codes) : revGet codes w = some c := by
  have hsome : (codes.reverse.find? (fun p => p.2 = w)).isSome := by
    rw [List.find?_isSome]
    exact ⟨(c, w), by simpa using hmem, by simp⟩
  obtain ⟨p, hp⟩ := Option.isSome_iff_exists.mp hsome
  have hpmem : p ∈ codes := by
    have := List.mem_of_find?_eq_some hp
    simpa using this
  have hpv : p.2 = w := by simpa using List.find?_some hp
  have hpc : p = (c, w) := by
    by_contra hne
    have hsep := List.Pairwise.forall codeSeparate_symm hpw hpmem hmem hne
    apply hsep.1
    rw [hpv]
  rw [revGet, hp, hpc]
  rfl

lemma revGet_proper_none (codes : List (Nat × List Bool))
    (hpw : codes.Pairwise codeSeparate) (c : Nat) (w : List Bool)
    (hmem : (c, w) ∈ codes) (u : List Bool) (hu : u <+: w) (hne : u ≠ w) :
    revGet codes u = none := by
  rw [revGet, List.find?_eq_none.mpr ?hnone]
  · rfl
  case hnone =>
    intro p hp hpu
    have hpmem : p ∈ codes := by simpa using hp
    have hpv : p.2 = u := by simpa using hpu
    by_cases hpe : p = (c, w)
    · rw [hpe] at hpv
      exact hne (hpv ▸ rfl)
    · have hsep := List.Pairwise.forall codeSeparate_symm hpw hpmem hmem hpe
      apply hsep.1
      rw [hpv]
      exact hu

/-! ## Decoding lemmas -/

lemma decode_text_aux_code (codes : List (Nat × List Bool))
    (hpw : codes.Pairwise codeSeparate) (c : Nat) (w : List Bool)
    (hmem : (c, w) ∈ codes) :
    ∀ (v u rest : List Bool), u ++ v = w → v ≠ [] →
      decode_text_aux codes (v ++ rest) u = c :: decode_text_aux codes rest [] := by
  intro v
  induction v with
  | nil => intro u rest _ hne; exact absurd rfl hne
  | cons b v2 ih =>
    intro u rest huv _
    cases v2 with
    | nil =>
      have hw : u ++ [b] = w := huv
      simp only [List.cons_append, List.nil_append, decode_text_aux]
      rw [hw, revGet_of_mem codes hpw c w hmem]
      simp
    | cons b2 v3 =>
      have hu2 : (u ++ [b]) ++ (b2 :: v3) = w := by
        rw [← huv]
        simp
      have hne2 : u ++ [b] ≠ w := by
        intro e
        have h1 := congrArg List.length hu2
        have h2 := congrArg List.length e
        simp only [List.length_append, List.length_cons, List.length_nil] at h1 h2
        omega
      have hpre : u ++ [b] <+: w := ⟨b2 :: v3, hu2⟩
      simp only [List.cons_append, decode_text_aux]
      rw [revGet_proper_none codes hpw c w hmem (u ++ [b]) hpre hne2]
      exact ih (u ++ [b]) rest hu2 (by simp)

lemma decode_text_encode_text (codes : List (Nat × List Bool))
    (hpw : codes.Pairwise codeSeparate) :
    ∀ s : List Nat,
      (∀ x ∈ s, ∃ w, (x, w) ∈ codes ∧ codesGet codes x = some w ∧ w ≠ []) →
      decode_text codes (encode_text codes s) = s := by
  intro s
  induction s with
  | nil => intro _; rfl
  | cons c s2 ih =>
    intro hin
    obtain ⟨w, hmem, hget, hne⟩ := hin c (by simp)
    have henc : encode_text codes (c :: s2) = w ++ encode_text codes s2 := by
      simp [encode_text, hget]
    rw [decode_text, henc,
      decode_text_aux_code codes hpw c w hmem w [] _ (by simp) hne]
    have := ih (fun x hx => hin x (List.mem_cons_of_mem c hx))
    rw [decode_text] at this
    rw [this]

lemma decode_text_aux_none (codes : List (Nat × List Bool)) :
    ∀ (v u : List Bool),
      (∀ q, q ≠ [] → q <+: v → revGet codes (u ++ q) = none) →
      decode_text_aux codes v u = [] := by
  intro v
  induction v with
  | nil => intro u _; rfl
  | cons b v2 ih =>
    intro u hnone
    rw [decode_text_aux]
    rw [hnone [b] (by simp) ⟨v2, rfl⟩]
    exact ih (u ++ [b]) (fun q hq hqv => by
      have h1 : (b :: q) <+: (b :: v2) := by
        rw [List.cons_prefix_cons]
        exact ⟨rfl, hqv⟩
      have := hnone (b :: q) (by simp) h1
      simpa [List.append_assoc] using this)

/-! ## Facts about the code table produced by `compress` on nonempty input -/

lemma compress_nonempty (s : List Nat) (hs : s ≠ []) :
    ∃ root,
      compress s = (encode_text (build_codes (some root)) s,
        build_codes (some root), some root) ∧
      List.Perm (leaves root) (distinctSyms s) := by
  have hheap : ((build_frequency_dict s).map (fun p => HuffmanNode.leaf p.1 p.2)) ≠ [] := by
    intro e
    have h1 : build_frequency_dict s = [] := List.map_eq_nil_iff.mp e
    have h2 : distinctSyms s = [] := by
      have := congrArg List.length h1
      simp only [build_frequency_dict, List.length_map, List.length_nil] at this
      exact List.eq_nil_of_length_eq_zero this
    exact distinctSyms_ne_nil s hs h2
  obtain ⟨t, hloop, hbt, hperm⟩ := build_tree_total _ hheap
  refine ⟨t, ?_, ?_⟩
  · rw [compress, if_neg hs]
    simp only [hbt]
  · rw [forestLeaves_initial] at hperm
    exact hperm

lemma compress_codes_keys_perm (s : List Nat) (hs : s ≠ []) :
    List.Perm ((compress s).2.1.map (fun e => e.1)) (distinctSyms s) := by
  obtain ⟨root, hcomp, hperm⟩ := compress_nonempty s hs
  rw [hcomp]
  simpa [build_codes_keys] using hperm

lemma compress_codes_nodup_keys (s : List Nat) (hs : s ≠ []) :
    ((compress s).2.1.map (fun e => e.1)).Nodup :=
  ((compress_codes_keys_perm s hs).nodup_iff).mpr (distinctSyms_nodup s)

lemma compress_codes_pairwise (s : List Nat) (hs : s ≠ []) :
    (compress s).2.1.Pairwise codeSeparate := by
  obtain ⟨root, hcomp, _⟩ := compress_nonempty s hs
  rw [hcomp]
  exact build_codes_pairwise root

lemma compress_codes_val_ne_nil (s : List Nat) (hs : s ≠ []) :
    ∀ e ∈ (compress s).2.1, e.2 ≠ [] := by
  obtain ⟨root, hcomp, _⟩ := compress_nonempty s hs
  rw [hcomp]
  exact build_codes_val_ne_nil root

lemma compress_codes_complete (s : List Nat) (hs : s ≠ []) :
    ∀ x ∈ s, ∃ w, (x, w) ∈ (compress s).2.1 ∧
      codesGet (compress s).2.1 x = some w ∧ w ≠ [] := by
  intro x hx
  have hkey : x ∈ (compress s).2.1.map (fun e => e.1) :=
    (compress_codes_keys_perm s hs).mem_iff.mpr ((mem_distinctSyms s x).mpr hx)
  obtain ⟨w, hmem, hget⟩ :=
    key_mem_codesGet _ (compress_codes_nodup_keys s hs) x hkey
  exact ⟨w, hmem, hget, compress_codes_val_ne_nil s hs (x, w) hmem⟩

lemma compress_encoded_eq (s : List Nat) :
    (compress s).1 = encode_text (compress s).2.1 s := by
  by_cases hs : s = []
  · subst hs; rfl
  · obtain ⟨root, hcomp, _⟩ := compress_nonempty s hs
    rw [hcomp]

/-! ## The round-trip law -/

lemma roundtrip_law (s : List Nat) :
    decompress_file_content (compress_file_content s).1 (compress_file_content s).2 = s := by
  by_cases hs : s = []
  · subst hs
    decide
  · have hcfc : compress_file_content s =
        (packBits ((compress s).1 ++
          List.replicate (8 - (compress s).1.length % 8) false),
         ⟨(compress s).2.1, 8 - (compress s).1.length % 8, s.length⟩) := rfl
    rw [hcfc]
    have hp8 : (((compress s).1 ++
        List.replicate (8 - (compress s).1.length % 8) false)).length % 8 = 0 := by
      simp only [List.length_append, List.length_replicate]
      omega
    have hpne : (8 : Nat) - (compress s).1.length % 8 ≠ 0 := by omega
    simp only [decompress_file_content]
    rw [packBits_unpack _ hp8, pyDropLast_pad _ _ hpne]
    rw [compress_encoded_eq s]
    exact decode_text_encode_text _ (compress_codes_pairwise s hs) s
      (compress_codes_complete s hs)

/-! ## Additional helper lemmas for the claims -/

lemma distinctSyms_const (s : List Nat) (c : Nat) (hs : s ≠ [])
    (hall : ∀ x ∈ s, x = c) : distinctSyms s = [c] := by
  induction s with
  | nil => exact absurd rfl hs
  | cons a t ih =>
    have hac : a = c := hall a (by simp)
    subst hac
    rw [distinctSyms]
    by_cases ht : t = []
    · subst ht; rfl
    · rw [ih ht (fun x hx => hall x (List.mem_cons_of_mem a hx))]
      simp

lemma leaves_singleton (t : HuffmanNode) (c : Nat) (h : leaves t = [c]) :
    ∃ f, t = HuffmanNode.leaf c f := by
  cases t with
  | leaf c2 f =>
    simp only [leaves, List.cons.injEq, and_true] at h
    exact ⟨f, by rw [h]⟩
  | node f l r =>
    exfalso
    have h1 := congrArg List.length h
    simp only [leaves, List.length_append, List.length_cons, List.length_nil] at h1
    have h2 : leaves l ≠ [] := leaves_ne_nil l
    have h3 : leaves r ≠ [] := leaves_ne_nil r
    have h4 : (leaves l).length ≠ 0 := fun e => h2 (List.eq_nil_of_length_eq_zero e)
    have h5 : (leaves r).length ≠ 0 := fun e => h3 (List.eq_nil_of_length_eq_zero e)
    omega

lemma compress_single_symbol (s : List Nat) (c : Nat) (hs : s ≠ [])
    (hall : ∀ x ∈ s, x = c) : (compress s).2.1 = [(c, [false])] := by
  obtain ⟨root, hcomp, hperm⟩ := compress_nonempty s hs
  rw [distinctSyms_const s c hs hall] at hperm
  obtain ⟨f, hf⟩ := leaves_singleton root c (List.perm_singleton.mp hperm)
  rw [hcomp]
  simp only
  rw [hf]
  rfl

lemma compress_encoded_ne_nil (s : List Nat) (hs : s ≠ []) :
    (compress s).1 ≠ [] := by
  rw [compress_encoded_eq]
  cases s with
  | nil => exact absurd rfl hs
  | cons c t =>
    obtain ⟨w, _, hget, hne⟩ := compress_codes_complete (c :: t) hs c (by simp)
    simp only [encode_text, List.map_cons, List.flatten_cons, hget, Option.getD_some]
    intro e
    exact hne (List.append_eq_nil.mp e).1

lemma packBits_replicate8 : packBits (List.replicate 8 false) = [0] := rfl

lemma compress_file_content_eq (s : List Nat) :
    compress_file_content s =
      (packBits ((compress s).1 ++
        List.replicate (8 - (compress s).1.length % 8) false),
       ⟨(compress s).2.1, 8 - (compress s).1.length % 8, s.length⟩) := rfl

/-! ## Claim theorems -/

/-- C1: for every symbol sequence `s` (empty, single-distinct-symbol and
full-alphabet sequences included), `decompress_file_content` applied to
the pair returned by `compress_file_content s` returns exactly `s`. -/
theorem claim_C1_roundtrip (s : List Nat) :
    decompress_file_content (compress_file_content s).1 (compress_file_content s).2 = s :=
  roundtrip_law s

/-- C2 counterexample: on the empty input, `compress_file_content` does
NOT return an empty compressed buffer with `padding = 0`: the buffer is
the single zero byte `[0]` and the padding is 8. -/
theorem claim_C2_counterexample :
    (compress_file_content []).1 ≠ [] ∧ (compress_file_content []).2.padding ≠ 0 := by
  decide

/-- C2 amended: on the empty input `compress_file_content` returns a
single zero byte as the buffer and metadata with `original_size = 0`,
`padding = 8`, `codes = {}`; no tree is built (`HuffmanCoding.compress`
returns early with root `None`). -/
theorem claim_C2_empty_input :
    compress_file_content [] = ([0], ⟨[], 8, 0⟩) ∧
    compress [] = ([], [], none) := by
  decide

/-- C3: for every input the metadata of `compress_file_content`
satisfies `original_size = len(s)`, `padding = 8 - (bit length mod 8)`
(hence in `[1, 8]`), bit length plus padding is divisible by 8, and
when the encoded bit length is already byte-aligned a full extra zero
byte is appended to the buffer. -/
theorem claim_C3_metadata (s : List Nat) :
    (compress_file_content s).2.original_size = s.length ∧
    (compress_file_content s).2.padding = 8 - (compress s).1.length % 8 ∧
    1 ≤ (compress_file_content s).2.padding ∧
    (compress_file_content s).2.padding ≤ 8 ∧
    ((compress s).1.length + (compress_file_content s).2.padding) % 8 = 0 ∧
    ((compress s).1.length % 8 = 0 →
      (compress_file_content s).1.length = (compress s).1.length / 8 + 1 ∧
      (compress_file_content s).1.getLast? = some 0) := by
  rw [compress_file_content_eq s]
  refine ⟨rfl, rfl,
    by show 1 ≤ 8 - (compress s).1.length % 8; omega,
    by show 8 - (compress s).1.length % 8 ≤ 8; omega,
    by show ((compress s).1.length + (8 - (compress s).1.length % 8)) % 8 = 0; omega, ?_⟩
  intro h0
  have hp : 8 - (compress s).1.length % 8 = 8 := by omega
  rw [hp]
  have hsplit : packBits ((compress s).1 ++ List.replicate 8 false)
      = packBits (compress s).1 ++ [0] := by
    rw [packBits_append _ _ h0, packBits_replicate8]
  constructor
  · simp only [hsplit, List.length_append, List.length_cons, List.length_nil,
      packBits_length]
    omega
  · simp only [hsplit]
    simp

/-- C3 witness: eight repetitions of one symbol encode to exactly 8
bits, a byte-aligned case, and the buffer indeed grows by a full zero
byte. -/
theorem claim_C3_witness :
    (compress (List.replicate 8 97)).1.length % 8 = 0 ∧
    ((compress_file_content (List.replicate 8 97)).1.length
        = (compress (List.replicate 8 97)).1.length / 8 + 1 ∧
      (compress_file_content (List.replicate 8 97)).1.getLast? = some 0) :=
  ⟨by decide, (claim_C3_metadata (List.replicate 8 97)).2.2.2.2.2 (by decide)⟩

/-- C5 counterexample: when the metadata padding (9) exceeds the total
bit length of the buffer (8), decompression does NOT fail with a
content-corruption error: it silently returns the empty sequence. -/
theorem claim_C5_counterexample :
    decompress_file_content [0] ⟨[(97, [false])], 9, 3⟩ = [] := by
  decide

/-- C5 amended: each byte is expanded to its 8-bit big-endian string in
buffer order; when `1 ≤ padding ≤ 8·len(buffer)` exactly `padding`
trailing bits are removed before decoding, but when the padding exceeds
the total bit length decompression silently returns the empty sequence
(the slice `binary_str[:-padding]` is empty) instead of raising a
content-corruption error. -/
theorem claim_C5_padding_strip (compressed : List Nat) (metadata : Metadata) :
    (8 * compressed.length < metadata.padding →
      decompress_file_content compressed metadata = []) ∧
    (1 ≤ metadata.padding → metadata.padding ≤ 8 * compressed.length →
      (compressed.flatMap (natToBits 8)).length = 8 * compressed.length ∧
      decompress_file_content compressed metadata =
        decode_text metadata.codes
          ((compressed.flatMap (natToBits 8)).take
            (8 * compressed.length - metadata.padding))) := by
  have hlen := flatMap_natToBits_length compressed
  constructor
  · intro hbig
    simp only [decompress_file_content]
    rw [pyDropLast_ge _ _ (by omega)]
    rfl
  · intro h1 h2
    refine ⟨hlen, ?_⟩
    simp only [decompress_file_content]
    rw [pyDropLast_take _ _ (by omega), hlen]

/-- C5 witness: a concrete over-large padding silently yields `[]`, and
a concrete in-range padding removes exactly `padding` trailing bits. -/
theorem claim_C5_witness :
    decompress_file_content [0] ⟨[(97, [false])], 9, 3⟩ = [] ∧
    ((([128] : List Nat).flatMap (natToBits 8)).length = 8 * ([128] : List Nat).length ∧
      decompress_file_content [128] ⟨[(97, [true])], 3, 5⟩ =
        decode_text [(97, [true])]
          ((([128] : List Nat).flatMap (natToBits 8)).take
            (8 * ([128] : List Nat).length - 3))) := by
  constructor
  · exact (claim_C5_padding_strip [0] ⟨[(97, [false])], 9, 3⟩).1 (by decide)
  · exact (claim_C5_padding_strip [128] ⟨[(97, [true])], 3, 5⟩).2 (by decide) (by decide)

/-- C6: a nonempty input whose symbols are all identical gets the code
table `{c: "0"}` (the leaf-root special case of `build_codes`, no
traversal) and round-trips exactly. -/
theorem claim_C6_single_symbol (s : List Nat) (c : Nat) (hs : s ≠ [])
    (hall : ∀ x ∈ s, x = c) :
    (compress s).2.1 = [(c, [false])] ∧
    decompress_file_content (compress_file_content s).1 (compress_file_content s).2 = s :=
  ⟨compress_single_symbol s c hs hall, roundtrip_law s⟩

/-- C6 witness at the concrete all-identical input `[5, 5, 5]`. -/
theorem claim_C6_witness :
    (compress [5, 5, 5]).2.1 = [(5, [false])] ∧
    decompress_file_content (compress_file_content [5, 5, 5]).1
      (compress_file_content [5, 5, 5]).2 = [5, 5, 5] :=
  claim_C6_single_symbol [5, 5, 5] 5 (by decide) (by decide)

/-- C7: on every nonempty input, the generated code table maps each
symbol of the input to a nonempty bit-string, and the codes of distinct
entries are mutually non-prefix (prefix-free table). -/
theorem claim_C7_prefix_free (s : List Nat) (hs : s ≠ []) :
    (∀ x ∈ s, ∃ w, codesGet (compress s).2.1 x = some w ∧ w ≠ []) ∧
    (compress s).2.1.Pairwise codeSeparate := by
  refine ⟨fun x hx => ?_, compress_codes_pairwise s hs⟩
  obtain ⟨w, _, hget, hne⟩ := compress_codes_complete s hs x hx
  exact ⟨w, hget, hne⟩

/-- C7 witness at the concrete input `[97, 98, 98]`. -/
theorem claim_C7_witness :
    (∀ x ∈ ([97, 98, 98] : List Nat),
      ∃ w, codesGet (compress [97, 98, 98]).2.1 x = some w ∧ w ≠ []) ∧
    (compress [97, 98, 98]).2.1.Pairwise codeSeparate :=
  claim_C7_prefix_free [97, 98, 98] (by decide)

/-- C9 counterexample: a frequency specification with a negative count
is NOT rejected: `isinstance(-3, int)` holds, validation passes, and the
route answers 200 with a tree built from the empty text (`"a" * -3` is
`""`), not a client-input error. -/
theorem claim_C9_counterexample :
    visualizer_post (some (.dict [("a", .pyint (-3))])) = VizResponse.ok [] ∧
    visualizer_post (some (.dict [("a", .pyint (-3))])) ≠ VizResponse.clientError := by
  decide

/-- C9 amended: unparsable bodies, non-dict payloads and dicts with a
non-integer count (Python bools counting as integers) are rejected
before any tree build with a client-input error, but negative integer
counts pass the validation and merely contribute zero symbols
(`char * freq` is empty for `freq < 0`). -/
theorem claim_C9_validation (v : CharFreq) :
    visualizer_post none = VizResponse.clientError ∧
    (visualizer_post (some v) = VizResponse.clientError ↔
      (v = .nondict ∨ ∃ entries, v = .dict entries ∧
        ¬ entries.all (fun p => isIntVal p.2))) ∧
    (∀ str : String, ∀ n : Int, n < 0 →
      isIntVal (PyVal.pyint n) = true ∧ pyStrMul str n = []) := by
  refine ⟨rfl, ?_, ?_⟩
  · cases v with
    | nondict => simp [visualizer_post]
    | dict entries =>
      by_cases hall : entries.all (fun p => isIntVal p.2)
      · have hok : visualizer_post (some (.dict entries))
            = VizResponse.ok (compress (buildText entries)).2.1 := by
          simp [visualizer_post, hall]
        rw [hok]
        constructor
        · intro h
          exact absurd h (by simp)
        · rintro (h | ⟨e2, he, hne⟩)
          · exact absurd h (by simp)
          · exfalso
            apply hne
            have he2 : entries = e2 := by
              injection he
            rw [← he2]
            exact hall
      · have hko : visualizer_post (some (.dict entries))
            = VizResponse.clientError := by
          simp [visualizer_post, hall]
        rw [hko]
        simp only [true_iff]
        exact .inr ⟨entries, rfl, hall⟩
  · intro str n hn
    refine ⟨rfl, ?_⟩
    have h0 : n.toNat = 0 := Int.toNat_of_nonpos (le_of_lt hn)
    simp [pyStrMul, h0]

/-- C9 witness: a dict with a non-integer value is rejected, while a
negative count passes validation and contributes nothing. -/
theorem claim_C9_witness :
    (visualizer_post (some (.dict [("a", PyVal.other)])) = VizResponse.clientError ↔
      ((.dict [("a", PyVal.other)] : CharFreq) = .nondict ∨
        ∃ entries, (.dict [("a", PyVal.other)] : CharFreq) = .dict entries ∧
          ¬ entries.all (fun p => isIntVal p.2))) ∧
    (isIntVal (PyVal.pyint (-5)) = true ∧ pyStrMul "a" (-5) = []) := by
  obtain ⟨h1, h2, h3⟩ := claim_C9_validation (.dict [("a", PyVal.other)])
  exact ⟨h2, h3 "a" (-5) (by decide)⟩

/-- C10: whenever the metadata padding is 0, the slice
`binary_str[:-0]` is empty, so decompression returns the empty
sequence, discarding the whole (nonempty) buffer. -/
theorem claim_C10_zero_padding (compressed : List Nat) (metadata : Metadata)
    (_hne : compressed ≠ []) (hp : metadata.padding = 0) :
    decompress_file_content compressed metadata = [] := by
  simp only [decompress_file_content, hp, pyDropLast, if_pos rfl]
  rfl

/-- C10 witness at a concrete nonempty buffer. -/
theorem claim_C10_witness :
    decompress_file_content [65] ⟨[(97, [false])], 0, 3⟩ = [] :=
  claim_C10_zero_padding [65] ⟨[(97, [false])], 0, 3⟩ (by decide) (by decide)

/-! ## Decoding a truncated stream -/

lemma decode_text_take (codes : List (Nat × List Bool))
    (hpw : codes.Pairwise codeSeparate) :
    ∀ (s : List Nat),
      (∀ x ∈ s, ∃ w, (x, w) ∈ codes ∧ codesGet codes x = some w ∧ w ≠ []) →
      ∀ j, ∃ k, k ≤ s.length ∧
        decode_text codes ((encode_text codes s).take j) = s.take k ∧
        (j < (encode_text codes s).length → k < s.length) := by
  intro s
  induction s with
  | nil =>
    intro _ j
    refine ⟨0, le_rfl, by simp [encode_text, decode_text, decode_text_aux], ?_⟩
    intro h
    simp [encode_text] at h
  | cons c s2 ih =>
    intro hin j
    obtain ⟨w, hmem, hget, hne⟩ := hin c (by simp)
    have henc : encode_text codes (c :: s2) = w ++ encode_text codes s2 := by
      simp [encode_text, hget]
    by_cases hj : w.length ≤ j
    · obtain ⟨k2, hk2le, hk2eq, hk2lt⟩ :=
        ih (fun x hx => hin x (List.mem_cons_of_mem c hx)) (j - w.length)
      refine ⟨k2 + 1, by simpa using Nat.succ_le_succ hk2le, ?_, ?_⟩
      · rw [henc, List.take_append_eq_append_take, List.take_of_length_le hj]
        rw [decode_text,
          decode_text_aux_code codes hpw c w hmem w [] _ (by simp) hne]
        rw [decode_text] at hk2eq
        rw [hk2eq, List.take_succ_cons]
      · intro hlt
        rw [henc, List.length_append] at hlt
        have h2 := hk2lt (by omega)
        simpa using Nat.succ_lt_succ h2
    · push_neg at hj
      refine ⟨0, by simp, ?_, fun _ => by simp⟩
      rw [henc, List.take_append_of_le_length (le_of_lt hj), decode_text]
      rw [decode_text_aux_none codes _ [] ?hnone]
      · simp
      case hnone =>
        intro q hq hqv
        have hqw : q <+: w := hqv.trans (List.take_prefix j w)
        have hqne : q ≠ w := by
          intro e
          have h1 := hqv.length_le
          simp only [List.length_take] at h1
          have h2 := congrArg List.length e
          omega
        simpa using revGet_proper_none codes hpw c w hmem q hqw hqne

/-- C4 counterexample: truncating the compressed buffer of
`"aaabbc"`-style input `[97,97,97,98,98,99]` by one byte and decoding
does NOT raise a content-integrity error: `decompress_file_content`
silently returns the wrong output `[97]` (a strict prefix of the
original six symbols). -/
theorem claim_C4_counterexample :
    decompress_file_content ((compress_file_content [97, 97, 97, 98, 98, 99]).1.dropLast)
      (compress_file_content [97, 97, 97, 98, 98, 99]).2 = [97] := by
  decide

/-- C4 amended: decoding never fails; a bitstream that does not fully
resolve leaves its trailing candidate bits silently discarded.  For any
nonempty input, truncating the compressed buffer by one byte makes
decompression silently return a strict prefix of the original sequence
instead of raising an error. -/
theorem claim_C4_truncation_silent (s : List Nat) (hs : s ≠ []) :
    ∃ k, k < s.length ∧
      decompress_file_content ((compress_file_content s).1.dropLast)
        (compress_file_content s).2 = s.take k := by
  have hLpos : (compress s).1.length ≠ 0 := by
    intro e
    exact compress_encoded_ne_nil s hs (List.eq_nil_of_length_eq_zero e)
  set L := (compress s).1.length with hLdef
  set p := 8 - L % 8 with hpdef
  set padded := (compress s).1 ++ List.replicate p false with hpaddeddef
  have hpadlen : padded.length = L + p := by
    simp [hpaddeddef, hLdef]
  have hN8 : (L + p) % 8 = 0 := by omega
  have hN8le : 8 ≤ L + p := by omega
  set A := padded.take (L + p - 8) with hAdef
  set B := padded.drop (L + p - 8) with hBdef
  have hA8 : A.length = L + p - 8 := by
    simp [hAdef, hpadlen]
  have hAdiv : A.length % 8 = 0 := by omega
  have hB8 : B.length = 8 := by
    simp [hBdef, hpadlen]
    omega
  have hAB : padded = A ++ B := (List.take_append_drop _ _).symm
  have hpackB : packBits B = [bitsToNat B] := by
    rw [packBits_cons B (by intro e; rw [e] at hB8; simp at hB8)]
    rw [List.take_of_length_le (le_of_eq hB8), List.drop_eq_nil_of_le (le_of_eq hB8)]
    rfl
  have hsplit : packBits padded = packBits A ++ [bitsToNat B] := by
    rw [hAB, packBits_append _ _ hAdiv, hpackB]
  have hdrop : (compress_file_content s).1.dropLast = packBits A := by
    rw [compress_file_content_eq s]
    show (packBits padded).dropLast = packBits A
    rw [hsplit]
    exact List.dropLast_concat
  have hmeta : (compress_file_content s).2 = ⟨(compress s).2.1, p, s.length⟩ := by
    rw [compress_file_content_eq s]
  have hpne : p ≠ 0 := by omega
  obtain ⟨k, hkle, hkeq, hklt⟩ :=
    decode_text_take (compress s).2.1 (compress_codes_pairwise s hs) s
      (compress_codes_complete s hs) (L - 8)
  refine ⟨k, ?_, ?_⟩
  · apply hklt
    rw [← compress_encoded_eq s]
    omega
  · rw [hdrop, hmeta]
    simp only [decompress_file_content]
    rw [packBits_unpack _ hAdiv]
    show decode_text (compress s).2.1 (pyDropLast A p) = s.take k
    rw [pyDropLast_take _ _ hpne, hA8, hAdef, List.take_take]
    have harith : min (L + p - 8 - p) (L + p - 8) = L - 8 := by omega
    rw [harith]
    have htake : padded.take (L - 8) = (compress s).1.take (L - 8) := by
      rw [hpaddeddef]
      exact List.take_append_of_le_length (by omega)
    rw [htake, compress_encoded_eq s]
    exact hkeq

/-- C4 witness at the concrete input `[97,97,97,98,98,99]`. -/
theorem claim_C4_witness :
    ∃ k, k < ([97, 97, 97, 98, 98, 99] : List Nat).length ∧
      decompress_file_content
        ((compress_file_content [97, 97, 97, 98, 98, 99]).1.dropLast)
        (compress_file_content [97, 97, 97, 98, 98, 99]).2
        = ([97, 97, 97, 98, 98, 99] : List Nat).take k :=
  claim_C4_truncation_silent [97, 97, 97, 98, 98, 99] (by decide)

/-! ## Index bookkeeping lemmas for the heap model -/

lemma getD_eraseIdx_of_lt (l : List HuffmanNode) (i j : Nat) (hij : j < i)
    (d : HuffmanNode) : (l.eraseIdx i).getD j d = l.getD j d := by
  by_cases hi : i < l.length
  · rw [List.eraseIdx_eq_take_drop_succ, List.getD_eq_getElem?_getD,
      List.getD_eq_getElem?_getD]
    have hjt : j < (l.take i).length := by
      simp only [List.length_take]
      omega
    rw [List.getElem?_append_left hjt, List.getElem?_take_of_lt hij]
  · rw [List.eraseIdx_of_length_le (by omega)]

lemma getD_eraseIdx_of_ge (l : List HuffmanNode) (i j : Nat) (hij : i ≤ j)
    (hi : i < l.length) (d : HuffmanNode) :
    (l.eraseIdx i).getD j d = l.getD (j + 1) d := by
  rw [List.eraseIdx_eq_take_drop_succ, List.getD_eq_getElem?_getD,
    List.getD_eq_getElem?_getD]
  have hlt : (l.take i).length = i := by
    simp only [List.length_take]
    omega
  have happ : ((l.take i) ++ (l.drop (i + 1)))[j]?
      = (l.drop (i + 1))[j - (l.take i).length]? :=
    List.getElem?_append_right (by omega)
  rw [happ, List.getElem?_drop, hlt]
  have heq : i + 1 + (j - i) = j + 1 := by omega
  rw [heq]

lemma getD_append_left (l2 : List HuffmanNode) (m : HuffmanNode) (j : Nat)
    (hj : j < l2.length) (d : HuffmanNode) :
    (l2 ++ [m]).getD j d = l2.getD j d := by
  rw [List.getD_eq_getElem?_getD, List.getD_eq_getElem?_getD,
    List.getElem?_append_left hj]

lemma getD_append_last (l2 : List HuffmanNode) (m : HuffmanNode)
    (d : HuffmanNode) : (l2 ++ [m]).getD l2.length d = m := by
  rw [List.getD_eq_getElem?_getD]
  have happ : (l2 ++ [m])[l2.length]? = [m][l2.length - l2.length]? :=
    List.getElem?_append_right le_rfl
  rw [happ]
  simp

lemma popMinIdx_cons_cons (a b : HuffmanNode) (u : List HuffmanNode) :
    popMinIdx (a :: b :: u) =
      if a.freq ≤ ((b :: u).getD (popMinIdx (b :: u)) dummyNode).freq then 0
      else popMinIdx (b :: u) + 1 := rfl

lemma popMinIdx_min : ∀ (l : List HuffmanNode), ∀ j, j < l.length →
    (l.getD (popMinIdx l) dummyNode).freq ≤ (l.getD j dummyNode).freq := by
  intro l
  induction l with
  | nil => intro j hj; simp at hj
  | cons a t ih =>
    intro j hj
    cases t with
    | nil =>
      have : j = 0 := by
        simp only [List.length_cons, List.length_nil] at hj
        omega
      subst this
      simp [popMinIdx]
    | cons b u =>
      rw [popMinIdx_cons_cons]
      by_cases hle : a.freq ≤ ((b :: u).getD (popMinIdx (b :: u)) dummyNode).freq
      · rw [if_pos hle]
        cases j with
        | zero => simp
        | succ j2 =>
          have hj2 : j2 < (b :: u).length := by
            simp only [List.length_cons] at hj ⊢
            omega
          simp only [List.getD_cons_zero, List.getD_cons_succ]
          exact le_trans hle (ih j2 hj2)
      · rw [if_neg hle]
        push_neg at hle
        cases j with
        | zero =>
          simp only [List.getD_cons_succ, List.getD_cons_zero]
          exact le_of_lt hle
        | succ j2 =>
          have hj2 : j2 < (b :: u).length := by
            simp only [List.length_cons] at hj ⊢
            omega
          simp only [List.getD_cons_succ]
          exact ih j2 hj2

lemma popMinIdx_leftmost : ∀ (l : List HuffmanNode), ∀ j, j < popMinIdx l →
    (l.getD (popMinIdx l) dummyNode).freq < (l.getD j dummyNode).freq := by
  intro l
  induction l with
  | nil => intro j hj; simp [popMinIdx] at hj
  | cons a t ih =>
    intro j hj
    cases t with
    | nil => simp [popMinIdx] at hj
    | cons b u =>
      rw [popMinIdx_cons_cons] at hj ⊢
      by_cases hle : a.freq ≤ ((b :: u).getD (popMinIdx (b :: u)) dummyNode).freq
      · rw [if_pos hle] at hj
        simp at hj
      · rw [if_neg hle] at hj ⊢
        push_neg at hle
        cases j with
        | zero =>
          simp only [List.getD_cons_succ, List.getD_cons_zero]
          exact hle
        | succ j2 =>
          simp only [List.getD_cons_succ]
          exact ih j2 (by omega)

/-! ## Final depth of forest elements along the merge loop -/

/-- Index of a surviving element after removing position `removed`
(meaningful for `i ≠ removed`). -/
def adjIdx (removed i : Nat) : Nat :=
  if i < removed then i else i - 1

lemma adjIdx_strictMono (k i j : Nat) (hij : i < j) (hi : i ≠ k) (hj : j ≠ k) :
    adjIdx k i < adjIdx k j := by
  unfold adjIdx
  by_cases h1 : i < k <;> by_cases h2 : j < k <;> simp only [h1, h2, if_true, if_false] <;> omega

lemma adjIdx_bound (k i len : Nat) (hk : k < len) (hi : i < len) (hne : i ≠ k) :
    adjIdx k i < len - 1 := by
  unfold adjIdx
  by_cases h : i < k <;> simp only [h, if_true, if_false] <;> omega

lemma getD_eraseIdx_adj (l : List HuffmanNode) (k i : Nat) (hk : k < l.length)
    (_hi : i < l.length) (hne : i ≠ k) (d : HuffmanNode) :
    (l.eraseIdx k).getD (adjIdx k i) d = l.getD i d := by
  unfold adjIdx
  by_cases h : i < k
  · rw [if_pos h]
    exact getD_eraseIdx_of_lt l k i h d
  · rw [if_neg h]
    rw [getD_eraseIdx_of_ge l k (i - 1) (by omega) hk d]
    congr 1
    omega

/-- Final depth, in the tree produced by the merge loop, of the root of
the forest element at index `i` (proof-layer helper). -/
def elemDepth (l : List HuffmanNode) (i : Nat) : Nat :=
  if h : l.length ≤ 1 then 0
  else
    if i = popMinIdx l then
      elemDepth (build_tree_step l) ((build_tree_step l).length - 1) + 1
    else if adjIdx (popMinIdx l) i = popMinIdx (l.eraseIdx (popMinIdx l)) then
      elemDepth (build_tree_step l) ((build_tree_step l).length - 1) + 1
    else
      elemDepth (build_tree_step l)
        (adjIdx (popMinIdx (l.eraseIdx (popMinIdx l))) (adjIdx (popMinIdx l) i))
termination_by l.length
decreasing_by
  all_goals rw [build_tree_step_length l (by omega)]
  all_goals omega

lemma elemDepth_base (l : List HuffmanNode) (h : l.length ≤ 1) (i : Nat) :
    elemDepth l i = 0 := by
  unfold elemDepth
  rw [dif_pos h]

lemma elemDepth_pop1 (l : List HuffmanNode) (h : 2 ≤ l.length) :
    elemDepth l (popMinIdx l)
      = elemDepth (build_tree_step l) ((build_tree_step l).length - 1) + 1 := by
  conv_lhs => rw [elemDepth]
  rw [dif_neg (by omega), if_pos rfl]

lemma elemDepth_pop2 (l : List HuffmanNode) (h : 2 ≤ l.length) (i : Nat)
    (hne : i ≠ popMinIdx l)
    (heq : adjIdx (popMinIdx l) i = popMinIdx (l.eraseIdx (popMinIdx l))) :
    elemDepth l i
      = elemDepth (build_tree_step l) ((build_tree_step l).length - 1) + 1 := by
  conv_lhs => rw [elemDepth]
  rw [dif_neg (by omega), if_neg hne, if_pos heq]

lemma elemDepth_survivor (l : List HuffmanNode) (h : 2 ≤ l.length) (i : Nat)
    (hne : i ≠ popMinIdx l)
    (hne2 : adjIdx (popMinIdx l) i ≠ popMinIdx (l.eraseIdx (popMinIdx l))) :
    elemDepth l i = elemDepth (build_tree_step l)
      (adjIdx (popMinIdx (l.eraseIdx (popMinIdx l))) (adjIdx (popMinIdx l) i)) := by
  conv_lhs => rw [elemDepth]
  rw [dif_neg (by omega), if_neg hne, if_neg hne2]

/-- The merged node appended by one loop iteration. -/
def mergedNode (l : List HuffmanNode) : HuffmanNode :=
  HuffmanNode.node ((heappop l).1.freq + (heappop (heappop l).2).1.freq)
    (heappop l).1 (heappop (heappop l).2).1

lemma build_tree_step_eq (l : List HuffmanNode) :
    build_tree_step l = (heappop (heappop l).2).2 ++ [mergedNode l] := rfl

lemma eraseIdx_len_sub_one (l : List HuffmanNode) (h : l ≠ []) :
    (l.eraseIdx (popMinIdx l)).length = l.length - 1 := by
  have := List.length_eraseIdx_add_one (popMinIdx_lt_length l h)
  omega

lemma unerase_getD (l : List HuffmanNode) (k j : Nat) (hk : k < l.length)
    (d : HuffmanNode) :
    l.getD (if j < k then j else j + 1) d = (l.eraseIdx k).getD j d := by
  by_cases h : j < k
  · rw [if_pos h, getD_eraseIdx_of_lt l k j h d]
  · rw [if_neg h, getD_eraseIdx_of_ge l k j (by omega) hk d]

lemma unerase_ne (k j : Nat) : (if j < k then j else j + 1) ≠ k := by
  split <;> omega

lemma unerase_adj (k j : Nat) : adjIdx k (if j < k then j else j + 1) = j := by
  unfold adjIdx
  by_cases h : j < k
  · rw [if_pos h, if_pos h]
  · rw [if_neg h, if_neg (by omega)]
    omega

lemma unerase_lt (k j len : Nat) (hk : k < len) (hj : j < len - 1) :
    (if j < k then j else j + 1) < len := by
  split <;> omega

lemma build_tree_step_eq2 (l : List HuffmanNode) :
    build_tree_step l =
      ((l.eraseIdx (popMinIdx l)).eraseIdx
        (popMinIdx (l.eraseIdx (popMinIdx l)))) ++ [mergedNode l] := rfl

lemma l1_length (l : List HuffmanNode) (h2 : 2 ≤ l.length) :
    (l.eraseIdx (popMinIdx l)).length = l.length - 1 :=
  eraseIdx_len_sub_one l (by intro e; rw [e] at h2; simp at h2)

lemma l1_ne_nil (l : List HuffmanNode) (h2 : 2 ≤ l.length) :
    l.eraseIdx (popMinIdx l) ≠ [] := by
  intro e
  have := l1_length l h2
  rw [e] at this
  simp at this
  omega

lemma l2_length (l : List HuffmanNode) (h2 : 2 ≤ l.length) :
    ((l.eraseIdx (popMinIdx l)).eraseIdx
      (popMinIdx (l.eraseIdx (popMinIdx l)))).length = l.length - 2 := by
  have h1 := l1_length l h2
  have := eraseIdx_len_sub_one (l.eraseIdx (popMinIdx l)) (l1_ne_nil l h2)
  omega

lemma step_getD_last (l : List HuffmanNode) (h2 : 2 ≤ l.length) :
    (build_tree_step l).getD (l.length - 2) dummyNode = mergedNode l := by
  rw [build_tree_step_eq2]
  have hl2 := l2_length l h2
  have := getD_append_last
    ((l.eraseIdx (popMinIdx l)).eraseIdx (popMinIdx (l.eraseIdx (popMinIdx l))))
    (mergedNode l) dummyNode
  rw [hl2] at this
  exact this

lemma mergedNode_freq (l : List HuffmanNode) :
    (mergedNode l).freq
      = (heappop l).1.freq + (heappop (heappop l).2).1.freq := rfl

lemma p1_min (l : List HuffmanNode) (j : Nat) (hj : j < l.length) :
    (heappop l).1.freq ≤ (l.getD j dummyNode).freq :=
  popMinIdx_min l j hj

lemma p2_min (l : List HuffmanNode) (j : Nat)
    (hj : j < (l.eraseIdx (popMinIdx l)).length) :
    (heappop (heappop l).2).1.freq
      ≤ ((l.eraseIdx (popMinIdx l)).getD j dummyNode).freq :=
  popMinIdx_min (l.eraseIdx (popMinIdx l)) j hj

lemma p1_le_p2 (l : List HuffmanNode) (h2 : 2 ≤ l.length) :
    (heappop l).1.freq ≤ (heappop (heappop l).2).1.freq := by
  have hi1 : popMinIdx l < l.length :=
    popMinIdx_lt_length l (by intro e; rw [e] at h2; simp at h2)
  have hi2 : popMinIdx (l.eraseIdx (popMinIdx l))
      < (l.eraseIdx (popMinIdx l)).length :=
    popMinIdx_lt_length _ (l1_ne_nil l h2)
  have hup := unerase_getD l (popMinIdx l) (popMinIdx (l.eraseIdx (popMinIdx l)))
    hi1 dummyNode
  have hlt : (if popMinIdx (l.eraseIdx (popMinIdx l)) < popMinIdx l
      then popMinIdx (l.eraseIdx (popMinIdx l))
      else popMinIdx (l.eraseIdx (popMinIdx l)) + 1) < l.length := by
    have := l1_length l h2
    exact unerase_lt _ _ _ hi1 (by omega)
  have := p1_min l _ hlt
  rw [hup] at this
  exact this

lemma step_getD_survivor (l : List HuffmanNode) (h2 : 2 ≤ l.length) (i : Nat)
    (hi : i < l.length) (hne1 : i ≠ popMinIdx l)
    (hne2 : adjIdx (popMinIdx l) i ≠ popMinIdx (l.eraseIdx (popMinIdx l))) :
    adjIdx (popMinIdx (l.eraseIdx (popMinIdx l))) (adjIdx (popMinIdx l) i)
      < l.length - 2 ∧
    (build_tree_step l).getD
      (adjIdx (popMinIdx (l.eraseIdx (popMinIdx l))) (adjIdx (popMinIdx l) i))
      dummyNode = l.getD i dummyNode := by
  have hi1 : popMinIdx l < l.length :=
    popMinIdx_lt_length l (by intro e; rw [e] at h2; simp at h2)
  have hl1 := l1_length l h2
  have hi2 : popMinIdx (l.eraseIdx (popMinIdx l))
      < (l.eraseIdx (popMinIdx l)).length :=
    popMinIdx_lt_length _ (l1_ne_nil l h2)
  have hadj1 : adjIdx (popMinIdx l) i < l.length - 1 :=
    adjIdx_bound _ _ _ hi1 hi hne1
  have hadj2 : adjIdx (popMinIdx (l.eraseIdx (popMinIdx l)))
      (adjIdx (popMinIdx l) i) < l.length - 2 := by
    have := adjIdx_bound (popMinIdx (l.eraseIdx (popMinIdx l)))
      (adjIdx (popMinIdx l) i) ((l.eraseIdx (popMinIdx l)).length)
      hi2 (by omega) hne2
    omega
  refine ⟨hadj2, ?_⟩
  rw [build_tree_step_eq2]
  rw [getD_append_left _ _ _ (by rw [l2_length l h2]; exact hadj2)]
  rw [getD_eraseIdx_adj _ _ _ hi2 (by omega) hne2]
  rw [getD_eraseIdx_adj _ _ _ hi1 hi hne1]

lemma step_all_ge_p2 (l : List HuffmanNode) (h2 : 2 ≤ l.length) (k : Nat)
    (hk : k < l.length - 1) :
    (heappop (heappop l).2).1.freq
      ≤ ((build_tree_step l).getD k dummyNode).freq := by
  have hl1 := l1_length l h2
  have hl2 := l2_length l h2
  by_cases hlast : k = l.length - 2
  · subst hlast
    rw [step_getD_last l h2, mergedNode_freq]
    omega
  · have hk2 : k < l.length - 2 := by omega
    rw [build_tree_step_eq2, getD_append_left _ _ _ (by omega)]
    have hup := unerase_getD (l.eraseIdx (popMinIdx l))
      (popMinIdx (l.eraseIdx (popMinIdx l))) k
      (popMinIdx_lt_length _ (l1_ne_nil l h2)) dummyNode
    rw [← hup]
    have hlt : (if k < popMinIdx (l.eraseIdx (popMinIdx l)) then k else k + 1)
        < (l.eraseIdx (popMinIdx l)).length := by
      apply unerase_lt
      · exact popMinIdx_lt_length _ (l1_ne_nil l h2)
      · omega
    exact p2_min l _ hlt

lemma popped_elemDepth (l : List HuffmanNode) (h2 : 2 ≤ l.length) (k : Nat)
    (hk : k = popMinIdx l ∨ adjIdx (popMinIdx l) k = popMinIdx (l.eraseIdx (popMinIdx l))) :
    elemDepth l k = elemDepth (build_tree_step l) (l.length - 2) + 1 := by
  have hidx : (build_tree_step l).length - 1 = l.length - 2 := by
    rw [build_tree_step_length l h2]
    omega
  by_cases h1 : k = popMinIdx l
  · rw [h1, elemDepth_pop1 l h2, hidx]
  · cases hk with
    | inl h => exact absurd h h1
    | inr h => rw [elemDepth_pop2 l h2 k h1 h, hidx]

lemma popped_getD_freq (l : List HuffmanNode) (h2 : 2 ≤ l.length) (k : Nat)
    (hk : k < l.length)
    (hcond : k = popMinIdx l ∨ adjIdx (popMinIdx l) k = popMinIdx (l.eraseIdx (popMinIdx l))) :
    (l.getD k dummyNode).freq ≤
      ((l.eraseIdx (popMinIdx l)).getD (popMinIdx (l.eraseIdx (popMinIdx l)))
        dummyNode).freq := by
  have hne : l ≠ [] := by intro e; rw [e] at h2; simp at h2
  have hi1lt : popMinIdx l < l.length := popMinIdx_lt_length l hne
  by_cases h1 : k = popMinIdx l
  · rw [h1]
    exact p1_le_p2 l h2
  · cases hcond with
    | inl h => exact absurd h h1
    | inr h =>
      rw [← getD_eraseIdx_adj l (popMinIdx l) k hi1lt hk h1, h]

lemma survivor_freq_ge (l : List HuffmanNode) (h2 : 2 ≤ l.length) (k : Nat)
    (hk : k < l.length) (h1 : k ≠ popMinIdx l) :
    ((l.eraseIdx (popMinIdx l)).getD (popMinIdx (l.eraseIdx (popMinIdx l)))
      dummyNode).freq ≤ (l.getD k dummyNode).freq := by
  have hne : l ≠ [] := by intro e; rw [e] at h2; simp at h2
  have hi1lt : popMinIdx l < l.length := popMinIdx_lt_length l hne
  rw [← getD_eraseIdx_adj l (popMinIdx l) k hi1lt hk h1]
  apply popMinIdx_min
  have hb := adjIdx_bound (popMinIdx l) k l.length hi1lt hk h1
  rw [l1_length l h2]
  exact hb

/-- The two invariants of the merge loop in the stable-heap model.
Part A: among the elements of a forest, an element that is no heavier
than a later one (or strictly lighter than an earlier one) ends at
least as deep in the final tree.  Part B: after one step, every element
no heavier than the freshly merged node ends at most one level deeper
than it. -/
lemma huff_AB : ∀ n : Nat, ∀ l : List HuffmanNode, l.length ≤ n →
    (∀ i j, i < j → j < l.length →
      ((l.getD i dummyNode).freq ≤ (l.getD j dummyNode).freq →
        elemDepth l j ≤ elemDepth l i) ∧
      ((l.getD j dummyNode).freq < (l.getD i dummyNode).freq →
        elemDepth l i ≤ elemDepth l j)) ∧
    (2 ≤ l.length → ∀ i, i < l.length - 1 →
      ((build_tree_step l).getD i dummyNode).freq ≤ (mergedNode l).freq →
      elemDepth (build_tree_step l) i
        ≤ elemDepth (build_tree_step l) (l.length - 2) + 1) := by
  intro n
  induction n with
  | zero =>
    intro l hl
    constructor
    · intro i j hij hj
      exfalso
      omega
    · intro h2 i hi hfreq
      exfalso
      omega
  | succ n ih =>
    intro l hl
    by_cases hsmall : l.length ≤ 1
    · constructor
      · intro i j hij hj
        exfalso
        omega
      · intro h2 i hi hfreq
        exfalso
        omega
    · have h2 : 2 ≤ l.length := by omega
      have hne : l ≠ [] := by intro e; rw [e] at h2; simp at h2
      have hi1lt : popMinIdx l < l.length := popMinIdx_lt_length l hne
      have hl1len : (l.eraseIdx (popMinIdx l)).length = l.length - 1 := l1_length l h2
      have hl1ne : l.eraseIdx (popMinIdx l) ≠ [] := l1_ne_nil l h2
      have hsteplen : (build_tree_step l).length = l.length - 1 :=
        build_tree_step_length l h2
      have hlastD : (build_tree_step l).getD (l.length - 2) dummyNode = mergedNode l :=
        step_getD_last l h2
      have IHstep := ih (build_tree_step l) (by omega)
      have A2 := IHstep.1
      have B2 := IHstep.2
      have B : ∀ i, i < l.length - 1 →
          ((build_tree_step l).getD i dummyNode).freq ≤ (mergedNode l).freq →
          elemDepth (build_tree_step l) i
            ≤ elemDepth (build_tree_step l) (l.length - 2) + 1 := by
        intro i hi hfreq
        by_cases hone : l.length - 1 ≤ 1
        · have hi0 : i = 0 := by omega
          have hl20 : l.length - 2 = 0 := by omega
          rw [hi0, hl20]
          omega
        · have h2s : 2 ≤ (build_tree_step l).length := by omega
          have hlne : build_tree_step l ≠ [] := by
            intro e
            rw [e] at hsteplen
            simp at hsteplen
            omega
          have hstep2len : (build_tree_step (build_tree_step l)).length
              = (build_tree_step l).length - 1 := build_tree_step_length _ h2s
          have hlastD2 : (build_tree_step (build_tree_step l)).getD
              ((build_tree_step l).length - 2) dummyNode
              = mergedNode (build_tree_step l) := step_getD_last _ h2s
          have IHstep2 := ih (build_tree_step (build_tree_step l)) (by omega)
          have A3 := IHstep2.1
          have hq1lt := popMinIdx_lt_length (build_tree_step l) hlne
          have hq2lt := popMinIdx_lt_length
            ((build_tree_step l).eraseIdx (popMinIdx (build_tree_step l)))
            (l1_ne_nil (build_tree_step l) h2s)
          have hlen1s := l1_length (build_tree_step l) h2s
          have hq1ge : (heappop (heappop l).2).1.freq
              ≤ ((build_tree_step l).getD (popMinIdx (build_tree_step l)) dummyNode).freq :=
            step_all_ge_p2 l h2 _ (by omega)
          have hq2ge : (heappop (heappop l).2).1.freq
              ≤ (((build_tree_step l).eraseIdx (popMinIdx (build_tree_step l))).getD
                  (popMinIdx ((build_tree_step l).eraseIdx
                    (popMinIdx (build_tree_step l)))) dummyNode).freq := by
            have hup := unerase_getD (build_tree_step l) (popMinIdx (build_tree_step l))
              (popMinIdx ((build_tree_step l).eraseIdx (popMinIdx (build_tree_step l))))
              hq1lt dummyNode
            rw [← hup]
            apply step_all_ge_p2 l h2
            have := unerase_lt (popMinIdx (build_tree_step l))
              (popMinIdx ((build_tree_step l).eraseIdx (popMinIdx (build_tree_step l))))
              ((build_tree_step l).length) hq1lt (by omega)
            omega
          have hmm : (mergedNode l).freq ≤ (mergedNode (build_tree_step l)).freq := by
            rw [mergedNode_freq, mergedNode_freq]
            have hp12 := p1_le_p2 l h2
            have e1 : (heappop (build_tree_step l)).1
                = (build_tree_step l).getD (popMinIdx (build_tree_step l)) dummyNode := rfl
            have e2 : (heappop (heappop (build_tree_step l)).2).1
                = ((build_tree_step l).eraseIdx (popMinIdx (build_tree_step l))).getD
                    (popMinIdx ((build_tree_step l).eraseIdx
                      (popMinIdx (build_tree_step l)))) dummyNode := rfl
            rw [e1, e2]
            omega
          by_cases hmpop : (l.length - 2) = popMinIdx (build_tree_step l) ∨
              adjIdx (popMinIdx (build_tree_step l)) (l.length - 2)
                = popMinIdx ((build_tree_step l).eraseIdx (popMinIdx (build_tree_step l)))
          · have hDlast := popped_elemDepth (build_tree_step l) h2s (l.length - 2) hmpop
            by_cases hipop : i = popMinIdx (build_tree_step l) ∨
                adjIdx (popMinIdx (build_tree_step l)) i
                  = popMinIdx ((build_tree_step l).eraseIdx (popMinIdx (build_tree_step l)))
            · have hDi := popped_elemDepth (build_tree_step l) h2s i hipop
              omega
            · push_neg at hipop
              have hDi := elemDepth_survivor (build_tree_step l) h2s i hipop.1 hipop.2
              have hsv := step_getD_survivor (build_tree_step l) h2s i (by omega)
                hipop.1 hipop.2
              have hB := B2 h2s
                (adjIdx (popMinIdx ((build_tree_step l).eraseIdx
                    (popMinIdx (build_tree_step l))))
                  (adjIdx (popMinIdx (build_tree_step l)) i))
                (by have := hsv.1; omega)
                (by rw [hsv.2]; exact le_trans hfreq hmm)
              omega
          · push_neg at hmpop
            have hDlast := elemDepth_survivor (build_tree_step l) h2s (l.length - 2)
              hmpop.1 hmpop.2
            have hsvlast := step_getD_survivor (build_tree_step l) h2s (l.length - 2)
              (by omega) hmpop.1 hmpop.2
            have hA2p := A3
              (adjIdx (popMinIdx ((build_tree_step l).eraseIdx
                  (popMinIdx (build_tree_step l))))
                (adjIdx (popMinIdx (build_tree_step l)) (l.length - 2)))
              ((build_tree_step l).length - 2)
              hsvlast.1 (by omega)
            have hDmle : elemDepth (build_tree_step (build_tree_step l))
                ((build_tree_step l).length - 2)
                ≤ elemDepth (build_tree_step (build_tree_step l))
                  (adjIdx (popMinIdx ((build_tree_step l).eraseIdx
                      (popMinIdx (build_tree_step l))))
                    (adjIdx (popMinIdx (build_tree_step l)) (l.length - 2))) := by
              apply hA2p.1
              rw [hsvlast.2, hlastD, hlastD2]
              exact hmm
            by_cases hipop : i = popMinIdx (build_tree_step l) ∨
                adjIdx (popMinIdx (build_tree_step l)) i
                  = popMinIdx ((build_tree_step l).eraseIdx (popMinIdx (build_tree_step l)))
            · have hDi := popped_elemDepth (build_tree_step l) h2s i hipop
              omega
            · push_neg at hipop
              have hDi := elemDepth_survivor (build_tree_step l) h2s i hipop.1 hipop.2
              have hsv := step_getD_survivor (build_tree_step l) h2s i (by omega)
                hipop.1 hipop.2
              have hB := B2 h2s
                (adjIdx (popMinIdx ((build_tree_step l).eraseIdx
                    (popMinIdx (build_tree_step l))))
                  (adjIdx (popMinIdx (build_tree_step l)) i))
                (by have := hsv.1; omega)
                (by rw [hsv.2]; exact le_trans hfreq hmm)
              omega
      have all_le : ∀ k, k < l.length →
          elemDepth l k ≤ elemDepth (build_tree_step l) (l.length - 2) + 1 := by
        intro k hk
        by_cases hkpop : k = popMinIdx l ∨
            adjIdx (popMinIdx l) k = popMinIdx (l.eraseIdx (popMinIdx l))
        · rw [popped_elemDepth l h2 k hkpop]
        · push_neg at hkpop
          have hD := elemDepth_survivor l h2 k hkpop.1 hkpop.2
          have hsv := step_getD_survivor l h2 k hk hkpop.1 hkpop.2
          rw [hD]
          by_cases hle : ((build_tree_step l).getD
              (adjIdx (popMinIdx (l.eraseIdx (popMinIdx l))) (adjIdx (popMinIdx l) k))
              dummyNode).freq ≤ (mergedNode l).freq
          · exact B (adjIdx (popMinIdx (l.eraseIdx (popMinIdx l)))
                (adjIdx (popMinIdx l) k)) (by have := hsv.1; omega) hle
          · push_neg at hle
            have hA := A2 (adjIdx (popMinIdx (l.eraseIdx (popMinIdx l)))
                (adjIdx (popMinIdx l) k)) (l.length - 2) hsv.1 (by omega)
            have := hA.2 (by rw [hlastD]; exact hle)
            omega
      have stab : ∀ i j, i < j → j < l.length → i ≠ popMinIdx l →
          adjIdx (popMinIdx l) i ≠ popMinIdx (l.eraseIdx (popMinIdx l)) →
          (j = popMinIdx l ∨
            adjIdx (popMinIdx l) j = popMinIdx (l.eraseIdx (popMinIdx l))) →
          (l.getD i dummyNode).freq ≤ (l.getD j dummyNode).freq → False := by
        intro i j hij hj hi1 hi2 hjpop hfr
        by_cases hj1 : j = popMinIdx l
        · subst hj1
          have := popMinIdx_leftmost l i hij
          omega
        · have hj2 := hjpop.resolve_left hj1
          have hfj : l.getD j dummyNode
              = (l.eraseIdx (popMinIdx l)).getD
                  (popMinIdx (l.eraseIdx (popMinIdx l))) dummyNode := by
            rw [← getD_eraseIdx_adj l (popMinIdx l) j hi1lt hj hj1, hj2]
          have hadjlt : adjIdx (popMinIdx l) i
              < popMinIdx (l.eraseIdx (popMinIdx l)) := by
            rw [← hj2]
            exact adjIdx_strictMono (popMinIdx l) i j hij hi1 hj1
          have hlm := popMinIdx_leftmost (l.eraseIdx (popMinIdx l)) _ hadjlt
          have hfi : (l.eraseIdx (popMinIdx l)).getD (adjIdx (popMinIdx l) i) dummyNode
              = l.getD i dummyNode :=
            getD_eraseIdx_adj l (popMinIdx l) i hi1lt (by omega) hi1 dummyNode
          rw [hfi] at hlm
          rw [hfj] at hfr
          omega
      have stab2 : ∀ i j, i < l.length → j < l.length →
          (i = popMinIdx l ∨
            adjIdx (popMinIdx l) i = popMinIdx (l.eraseIdx (popMinIdx l))) →
          j ≠ popMinIdx l →
          (l.getD j dummyNode).freq < (l.getD i dummyNode).freq → False := by
        intro i j hi hj hipop hjne hfr
        have ha := popped_getD_freq l h2 i hi hipop
        have hb := survivor_freq_ge l h2 j hj hjne
        omega
      refine ⟨?_, fun _ => B⟩
      intro i j hij hj
      by_cases hipop : i = popMinIdx l ∨
          adjIdx (popMinIdx l) i = popMinIdx (l.eraseIdx (popMinIdx l))
      · by_cases hjpop : j = popMinIdx l ∨
            adjIdx (popMinIdx l) j = popMinIdx (l.eraseIdx (popMinIdx l))
        · have hDi := popped_elemDepth l h2 i hipop
          have hDj := popped_elemDepth l h2 j hjpop
          constructor <;> intro _ <;> omega
        · push_neg at hjpop
          constructor
          · intro _
            rw [popped_elemDepth l h2 i hipop]
            exact all_le j (by omega)
          · intro hfr
            exact (stab2 i j (by omega) (by omega) hipop hjpop.1 hfr).elim
      · push_neg at hipop
        by_cases hjpop : j = popMinIdx l ∨
            adjIdx (popMinIdx l) j = popMinIdx (l.eraseIdx (popMinIdx l))
        · constructor
          · intro hfr
            exact (stab i j hij (by omega) hipop.1 hipop.2 hjpop hfr).elim
          · intro _
            rw [popped_elemDepth l h2 j hjpop]
            exact all_le i (by omega)
        · push_neg at hjpop
          have hDi := elemDepth_survivor l h2 i hipop.1 hipop.2
          have hDj := elemDepth_survivor l h2 j hjpop.1 hjpop.2
          have hsvi := step_getD_survivor l h2 i (by omega) hipop.1 hipop.2
          have hsvj := step_getD_survivor l h2 j (by omega) hjpop.1 hjpop.2
          have hmono : adjIdx (popMinIdx (l.eraseIdx (popMinIdx l)))
                (adjIdx (popMinIdx l) i)
              < adjIdx (popMinIdx (l.eraseIdx (popMinIdx l)))
                (adjIdx (popMinIdx l) j) := by
            apply adjIdx_strictMono _ _ _ _ hipop.2 hjpop.2
            exact adjIdx_strictMono _ _ _ hij hipop.1 hjpop.1
          have hA := A2 _ _ hmono (by have := hsvj.1; omega)
          constructor
          · intro hfr
            rw [hDi, hDj]
            apply hA.1
            rw [hsvi.2, hsvj.2]
            exact hfr
          · intro hfr
            rw [hDi, hDj]
            apply hA.2
            rw [hsvi.2, hsvj.2]
            exact hfr

/-! ## Leaf depths: linking the merge loop to code lengths -/

/-- `HuffmanCoding.build_heap`: one leaf node per entry of the
frequency table, pushed in table order. -/
def build_heap (frequency : List (Nat × Nat)) : List HuffmanNode :=
  frequency.map (fun p => HuffmanNode.leaf p.1 p.2)

/-- Depth of the leaf labelled `c` in a tree, if present; follows the
leftmost occurrence, which is unique when the leaf labels are
duplicate-free (proof-layer helper). -/
def leafDepth (c : Nat) : HuffmanNode → Option Nat
  | .leaf c2 _ => if c2 = c then some 0 else none
  | .node _ l r =>
    match leafDepth c l with
    | some d => some (d + 1)
    | none =>
      match leafDepth c r with
      | some d => some (d + 1)
      | none => none

lemma leafDepth_node_left (c f : Nat) (l r : HuffmanNode) (d : Nat)
    (h : leafDepth c l = some d) :
    leafDepth c (.node f l r) = some (d + 1) := by
  simp [leafDepth, h]

lemma leafDepth_node_right (c f : Nat) (l r : HuffmanNode) (d : Nat)
    (hl : leafDepth c l = none) (h : leafDepth c r = some d) :
    leafDepth c (.node f l r) = some (d + 1) := by
  simp [leafDepth, hl, h]

lemma leafDepth_mem : ∀ (t : HuffmanNode) (c d : Nat),
    leafDepth c t = some d → c ∈ leaves t
  | .leaf c2 f, c, d, h => by
    by_cases hc : c2 = c
    · subst hc
      simp [leaves]
    · simp [leafDepth, hc] at h
  | .node f l r, c, d, h => by
    cases hl : leafDepth c l with
    | some dl =>
      have := leafDepth_mem l c dl hl
      simp [leaves, this]
    | none =>
      simp only [leafDepth, hl] at h
      cases hr : leafDepth c r with
      | some dr =>
        have := leafDepth_mem r c dr hr
        simp [leaves, this]
      | none =>
        rw [hr] at h
        exact absurd h (by simp)

lemma leafDepth_not_mem : ∀ (t : HuffmanNode) (c : Nat),
    c ∉ leaves t → leafDepth c t = none
  | .leaf c2 f, c, h => by
    have hc : c2 ≠ c := by
      intro e
      exact h (by simp [leaves, e])
    simp [leafDepth, hc]
  | .node f l r, c, h => by
    simp only [leaves, List.mem_append, not_or] at h
    simp [leafDepth, leafDepth_not_mem l c h.1, leafDepth_not_mem r c h.2]

lemma build_codes_helper_length : ∀ (t : HuffmanNode) (pre : List Bool)
    (c : Nat) (w : List Bool), (leaves t).Nodup →
    (c, w) ∈ build_codes_helper t pre →
    ∃ d, leafDepth c t = some d ∧ w.length = pre.length + d
  | .leaf c2 f, pre, c, w, _, h => by
    simp only [build_codes_helper, List.mem_singleton, Prod.mk.injEq] at h
    refine ⟨0, ?_, ?_⟩
    · rw [h.1]
      simp [leafDepth]
    · rw [h.2, Nat.add_zero]
  | .node f l r, pre, c, w, hnd, h => by
    simp only [leaves] at hnd
    rw [List.nodup_append] at hnd
    simp only [build_codes_helper, List.mem_append] at h
    cases h with
    | inl h =>
      obtain ⟨d, hd, hw⟩ := build_codes_helper_length l (pre ++ [false]) c w hnd.1 h
      refine ⟨d + 1, leafDepth_node_left c f l r d hd, ?_⟩
      rw [hw, List.length_append]
      simp only [List.length_cons, List.length_nil]
      omega
    | inr h =>
      obtain ⟨d, hd, hw⟩ := build_codes_helper_length r (pre ++ [true]) c w hnd.2.1 h
      have hcr : c ∈ leaves r := leafDepth_mem r c d hd
      have hcl : c ∉ leaves l := fun hm => hnd.2.2 hm hcr
      refine ⟨d + 1,
        leafDepth_node_right c f l r d (leafDepth_not_mem l c hcl) hd, ?_⟩
      rw [hw, List.length_append]
      simp only [List.length_cons, List.length_nil]
      omega

lemma forest_disjoint (l : List HuffmanNode) (hnd : (forestLeaves l).Nodup)
    (i j : Nat) (hi : i < l.length) (hj : j < l.length) (hne : i ≠ j)
    (c : Nat) (hci : c ∈ leaves (l.getD i dummyNode)) :
    c ∉ leaves (l.getD j dummyNode) := by
  unfold forestLeaves at hnd
  rw [List.nodup_flatten] at hnd
  have hpw := hnd.2
  rw [List.pairwise_iff_getElem] at hpw
  rw [List.getD_eq_getElem l dummyNode hi] at hci
  rw [List.getD_eq_getElem l dummyNode hj]
  rcases Nat.lt_or_ge i j with hij | hij
  · have hD := hpw i j (by simpa using hi) (by simpa using hj) hij
    simp only [List.getElem_map] at hD
    exact hD hci
  · have hji : j < i := by omega
    have hD := hpw j i (by simpa using hj) (by simpa using hi) hji
    simp only [List.getElem_map] at hD
    exact fun hcj => hD hcj hci

lemma leafDepth_huffLoop : ∀ n : Nat, ∀ l : List HuffmanNode, l.length ≤ n →
    l ≠ [] → (forestLeaves l).Nodup →
    ∀ i, i < l.length → ∀ c d, leafDepth c (l.getD i dummyNode) = some d →
    leafDepth c ((huffLoop l).getD 0 dummyNode) = some (elemDepth l i + d) := by
  intro n
  induction n with
  | zero =>
    intro l hl hne
    exfalso
    apply hne
    cases l with
    | nil => rfl
    | cons a t => simp at hl
  | succ n ih =>
    intro l hl hne hnd i hi c d hd
    by_cases h1 : l.length ≤ 1
    · rw [huffLoop_done l h1]
      have hi0 : i = 0 := by omega
      subst hi0
      rw [elemDepth_base l h1 0]
      simpa using hd
    · have h2 : 2 ≤ l.length := by omega
      have hsteplen : (build_tree_step l).length = l.length - 1 :=
        build_tree_step_length l h2
      have hne2 : build_tree_step l ≠ [] := by
        intro e
        rw [e] at hsteplen
        simp at hsteplen
        omega
      have hnd2 : (forestLeaves (build_tree_step l)).Nodup :=
        ((forestLeaves_step_perm l h2).nodup_iff).mpr hnd
      have hlen2 : (build_tree_step l).length ≤ n := by omega
      have hi1lt : popMinIdx l < l.length := popMinIdx_lt_length l hne
      by_cases hc1 : i = popMinIdx l
      · have hmd : leafDepth c (mergedNode l) = some (d + 1) := by
          unfold mergedNode
          apply leafDepth_node_left
          show leafDepth c (l.getD (popMinIdx l) dummyNode) = some d
          rw [← hc1]
          exact hd
        have hrec := ih (build_tree_step l) hlen2 hne2 hnd2 (l.length - 2)
          (by omega) c (d + 1) (by rw [step_getD_last l h2]; exact hmd)
        rw [huffLoop_step l h2, hrec, popped_elemDepth l h2 i (Or.inl hc1)]
        congr 1
        omega
      · by_cases hc2 : adjIdx (popMinIdx l) i = popMinIdx (l.eraseIdx (popMinIdx l))
        · have hsd : (l.eraseIdx (popMinIdx l)).getD
              (popMinIdx (l.eraseIdx (popMinIdx l))) dummyNode
              = l.getD i dummyNode := by
            rw [← hc2]
            exact getD_eraseIdx_adj l (popMinIdx l) i hi1lt hi hc1 dummyNode
          have hmem : c ∈ leaves (l.getD i dummyNode) := leafDepth_mem _ c d hd
          have hnl : c ∉ leaves (l.getD (popMinIdx l) dummyNode) :=
            forest_disjoint l hnd i (popMinIdx l) hi hi1lt hc1 c hmem
          have hmd : leafDepth c (mergedNode l) = some (d + 1) := by
            unfold mergedNode
            apply leafDepth_node_right
            · show leafDepth c (l.getD (popMinIdx l) dummyNode) = none
              exact leafDepth_not_mem _ c hnl
            · show leafDepth c ((l.eraseIdx (popMinIdx l)).getD
                (popMinIdx (l.eraseIdx (popMinIdx l))) dummyNode) = some d
              rw [hsd]
              exact hd
          have hrec := ih (build_tree_step l) hlen2 hne2 hnd2 (l.length - 2)
            (by omega) c (d + 1) (by rw [step_getD_last l h2]; exact hmd)
          rw [huffLoop_step l h2, hrec, popped_elemDepth l h2 i (Or.inr hc2)]
          congr 1
          omega
        · obtain ⟨hblt, hbeq⟩ := step_getD_survivor l h2 i hi hc1 hc2
          have hrec := ih (build_tree_step l) hlen2 hne2 hnd2
            (adjIdx (popMinIdx (l.eraseIdx (popMinIdx l))) (adjIdx (popMinIdx l) i))
            (by omega) c d (by rw [hbeq]; exact hd)
          rw [huffLoop_step l h2, hrec, elemDepth_survivor l h2 i hc1 hc2]

lemma huffLoop_eq_singleton (l : List HuffmanNode) (h : l ≠ []) :
    huffLoop l = [(huffLoop l).getD 0 dummyNode] := by
  obtain ⟨a, ha⟩ := List.length_eq_one.mp (huffLoop_length_one l h)
  rw [ha]
  rfl

lemma build_tree_getD (l : List HuffmanNode) (h : l ≠ []) :
    build_tree l = some ((huffLoop l).getD 0 dummyNode) := by
  unfold build_tree
  rw [huffLoop_eq_singleton l h]
  simp

lemma mem_of_codesGet (codes : List (Nat × List Bool)) (c : Nat) (w : List Bool)
    (h : codesGet codes c = some w) : (c, w) ∈ codes := by
  unfold codesGet at h
  rw [Option.map_eq_some'] at h
  obtain ⟨p, hp, hw⟩ := h
  obtain ⟨p1, p2⟩ := p
  have hmem := List.mem_of_find?_eq_some hp
  have hpred := List.find?_some hp
  simp only [decide_eq_true_eq] at hpred
  simp only at hw
  rw [← hpred, ← hw]
  exact hmem

lemma build_heap_getD (tbl : List (Nat × Nat)) (i : Nat) (hi : i < tbl.length) :
    (build_heap tbl).getD i dummyNode
      = HuffmanNode.leaf (tbl.getD i (0, 0)).1 (tbl.getD i (0, 0)).2 := by
  unfold build_heap
  rw [List.getD_eq_getElem _ dummyNode (by simpa using hi),
    List.getD_eq_getElem _ (0, 0) hi, List.getElem_map]

lemma forestLeaves_build_heap : ∀ tbl : List (Nat × Nat),
    forestLeaves (build_heap tbl) = tbl.map (fun p => p.1)
  | [] => rfl
  | a :: t => by
    have ih := forestLeaves_build_heap t
    simp only [build_heap, forestLeaves] at ih ⊢
    simp only [List.map_cons, List.flatten_cons, leaves]
    rw [ih]
    simp

lemma freq_of_key (tbl : List (Nat × Nat))
    (hnd : (tbl.map (fun p => p.1)).Nodup) :
    ∀ a f1 f2, (a, f1) ∈ tbl → (a, f2) ∈ tbl → f1 = f2 := by
  induction tbl with
  | nil =>
    intro a f1 f2 h1
    simp at h1
  | cons e t ih =>
    intro a f1 f2 h1 h2
    simp only [List.map_cons, List.nodup_cons] at hnd
    have hmemk : ∀ g : Nat, (a, g) ∈ t → a ∈ t.map (fun p => p.1) :=
      fun g hg => List.mem_map.mpr ⟨(a, g), hg, rfl⟩
    rcases List.mem_cons.mp h1 with he1 | ht1
    · rcases List.mem_cons.mp h2 with he2 | ht2
      · have hee := he1.trans he2.symm
        simpa using congrArg Prod.snd hee
      · exfalso
        apply hnd.1
        rw [← he1]
        exact hmemk f2 ht2
    · rcases List.mem_cons.mp h2 with he2 | ht2
      · exfalso
        apply hnd.1
        rw [← he2]
        exact hmemk f1 ht1
      · exact ih hnd.2 a f1 f2 ht1 ht2

/-- C8: weight-ordering of the generated codes.  For every frequency
table with at least two (distinct-keyed) entries, in the code table
produced by `build_codes` on the tree `build_tree` builds from the
heap of `build_heap` (heapq modelled as a stable min-priority queue:
pop = leftmost node of minimal `freq`), a symbol of strictly lower
frequency never gets a strictly shorter code: if `fa < fb` then the
code of `b` is no longer than the code of `a`. -/
theorem claim_C8_weight_ordering (freqTable : List (Nat × Nat))
    (hnd : (freqTable.map (fun p => p.1)).Nodup) (h2 : 2 ≤ freqTable.length)
    (a fa b fb : Nat) (wa wb : List Bool)
    (hma : (a, fa) ∈ freqTable) (hmb : (b, fb) ∈ freqTable) (hlt : fa < fb)
    (hwa : codesGet (build_codes (build_tree (build_heap freqTable))) a = some wa)
    (hwb : codesGet (build_codes (build_tree (build_heap freqTable))) b = some wb) :
    wb.length ≤ wa.length := by
  have hheaplen : (build_heap freqTable).length = freqTable.length := by
    unfold build_heap
    exact List.length_map _ _
  have hheapne : build_heap freqTable ≠ [] := by
    intro e
    rw [e] at hheaplen
    simp at hheaplen
    omega
  have hndF : (forestLeaves (build_heap freqTable)).Nodup := by
    rw [forestLeaves_build_heap]
    exact hnd
  obtain ⟨ia, hia, hga⟩ := List.mem_iff_getElem.mp hma
  obtain ⟨ib, hib, hgb⟩ := List.mem_iff_getElem.mp hmb
  have hane : a ≠ b := by
    intro e
    subst e
    have := freq_of_key freqTable hnd a fa fb hma hmb
    omega
  have hine : ia ≠ ib := by
    intro e
    subst e
    have hab := hga.symm.trans hgb
    apply hane
    simpa using congrArg Prod.fst hab
  have hda : freqTable.getD ia (0, 0) = (a, fa) := by
    rw [List.getD_eq_getElem _ _ hia]
    exact hga
  have hdb : freqTable.getD ib (0, 0) = (b, fb) := by
    rw [List.getD_eq_getElem _ _ hib]
    exact hgb
  have hha : (build_heap freqTable).getD ia dummyNode = HuffmanNode.leaf a fa := by
    rw [build_heap_getD freqTable ia hia, hda]
  have hhb : (build_heap freqTable).getD ib dummyNode = HuffmanNode.leaf b fb := by
    rw [build_heap_getD freqTable ib hib, hdb]
  have htree := build_tree_getD (build_heap freqTable) hheapne
  obtain ⟨T, hT⟩ : ∃ T, build_tree (build_heap freqTable) = some T := ⟨_, htree⟩
  have hTeq : T = (huffLoop (build_heap freqTable)).getD 0 dummyNode := by
    rw [hT] at htree
    exact Option.some.inj htree
  have hLa : leafDepth a T = some (elemDepth (build_heap freqTable) ia + 0) := by
    rw [hTeq]
    apply leafDepth_huffLoop (build_heap freqTable).length (build_heap freqTable)
      le_rfl hheapne hndF ia (by omega) a 0
    rw [hha]
    simp [leafDepth]
  have hLb : leafDepth b T = some (elemDepth (build_heap freqTable) ib + 0) := by
    rw [hTeq]
    apply leafDepth_huffLoop (build_heap freqTable).length (build_heap freqTable)
      le_rfl hheapne hndF ib (by omega) b 0
    rw [hhb]
    simp [leafDepth]
  have hperm : List.Perm (leaves T) (forestLeaves (build_heap freqTable)) := by
    have hp := huffLoop_leaves_perm (build_heap freqTable)
    rw [huffLoop_eq_singleton (build_heap freqTable) hheapne] at hp
    rw [hTeq]
    simpa [forestLeaves] using hp
  have hndT : (leaves T).Nodup := hperm.nodup_iff.mpr hndF
  have hlenT : (leaves T).length = freqTable.length := by
    rw [hperm.length_eq, forestLeaves_build_heap]
    exact List.length_map _ _
  obtain ⟨fT, lT, rT, hTnode⟩ : ∃ f lc rc, T = HuffmanNode.node f lc rc := by
    cases T with
    | leaf c f =>
      exfalso
      simp [leaves] at hlenT
      omega
    | node f lc rc => exact ⟨f, lc, rc, rfl⟩
  have hcodes : build_codes (build_tree (build_heap freqTable))
      = build_codes_helper T [] := by
    rw [hT, hTnode]
    rfl
  rw [hcodes] at hwa hwb
  obtain ⟨da, hda2, hwalen⟩ :=
    build_codes_helper_length T [] a wa hndT (mem_of_codesGet _ _ _ hwa)
  obtain ⟨db, hdb2, hwblen⟩ :=
    build_codes_helper_length T [] b wb hndT (mem_of_codesGet _ _ _ hwb)
  rw [hLa] at hda2
  rw [hLb] at hdb2
  have hda3 := Option.some.inj hda2
  have hdb3 := Option.some.inj hdb2
  have hfra : ((build_heap freqTable).getD ia dummyNode).freq = fa := by
    rw [hha]
    rfl
  have hfrb : ((build_heap freqTable).getD ib dummyNode).freq = fb := by
    rw [hhb]
    rfl
  have hdep : elemDepth (build_heap freqTable) ib
      ≤ elemDepth (build_heap freqTable) ia := by
    rcases Nat.lt_or_ge ia ib with hlt2 | hge
    · have hA := (huff_AB (build_heap freqTable).length (build_heap freqTable)
        le_rfl).1 ia ib hlt2 (by omega)
      apply hA.1
      rw [hfra, hfrb]
      omega
    · have hlt3 : ib < ia := by omega
      have hA := (huff_AB (build_heap freqTable).length (build_heap freqTable)
        le_rfl).1 ib ia hlt3 (by omega)
      apply hA.2
      rw [hfra, hfrb]
      omega
  simp only [List.length_nil] at hwalen hwblen
  omega

/-- Witness for C8 at the concrete frequency table `{97: 1, 98: 2}`:
both hypotheses and conclusion evaluate. -/
theorem claim_C8_witness :
    ((([(97, 1), (98, 2)] : List (Nat × Nat)).map (fun p => p.1)).Nodup
      ∧ 2 ≤ ([(97, 1), (98, 2)] : List (Nat × Nat)).length
      ∧ ((97, 1) : Nat × Nat) ∈ ([(97, 1), (98, 2)] : List (Nat × Nat))
      ∧ ((98, 2) : Nat × Nat) ∈ ([(97, 1), (98, 2)] : List (Nat × Nat))
      ∧ (1 : Nat) < 2
      ∧ codesGet (build_codes (build_tree (build_heap [(97, 1), (98, 2)]))) 97
          = some [false]
      ∧ codesGet (build_codes (build_tree (build_heap [(97, 1), (98, 2)]))) 98
          = some [true])
    ∧ ([true] : List Bool).length ≤ ([false] : List Bool).length :=
  ⟨⟨by decide, by decide, by decide, by decide, by decide, by decide, by decide⟩,
    claim_C8_weight_ordering [(97, 1), (98, 2)] (by decide) (by decide)
      97 1 98 2 [false] [true] (by decide) (by decide) (by decide)
      (by decide) (by decide)⟩

end HuffmanViz
